import Mathlib

/-!
Verification development for the bup content-addressed backup engine
(hashsplit chunk-tree builder, directory-tree writer, encrypted pack
container, and encrypted repository facade).

Byte strings are modelled as `List Nat` (each element a byte value).
OIDs returned by the object writers are modelled as a free object
algebra (`Oid.blob` / `Oid.tree`), so that distinct written objects
stay distinct and the chunk leaves of a tree are recoverable.
-/

set_option maxRecDepth 10000

abbrev Bytes := List Nat

namespace Hashsplit

/-- Git mode constant `0o100644` from hashsplit.py. -/
def GIT_MODE_FILE : Nat := 0o100644

/-- Git mode constant `0o40000` from hashsplit.py. -/
def GIT_MODE_TREE : Nat := 0o40000

/-- Fan-out bound from hashsplit.py. -/
def MAX_PER_TREE : Nat := 256

/-- Object identifiers: `makeblob` and `maketree` are modelled as the
constructors of a free algebra.  A tree records its shalist, i.e. the
`(mode, name, oid)` triples handed to `maketree`. -/
inductive Oid where
  | blob (data : Bytes)
  | tree (shalist : List (Nat × Bytes × Oid))

/-- A stack entry `(mode, sha, size)` as used by `split_to_shalist`. -/
abbrev Entry := Nat × Oid × Nat

/-- Lowercase hex rendering of a number, as python `b'%x' % n` (so `0`
renders as `"0"`). -/
def hexBytes (n : Nat) : Bytes := (Nat.toDigits 16 n).map Char.toNat

/-- Zero padding to a field width, as python `b'%0*x' % (vlen, n)`:
pad on the left with ASCII `'0'` (48); never truncate. -/
def zeroPad (vlen : Nat) (s : Bytes) : Bytes :=
  List.replicate (vlen - s.length) 48 ++ s

/-- Inner loop of `_make_shalist`: name every entry by its running byte
offset (in hex, padded to width `vlen`). -/
def makeShalistGo (vlen : Nat) : Nat → List Entry → List (Nat × Bytes × Oid)
  | _, [] => []
  | ofs, (mode, sha, size) :: rest =>
      (mode, zeroPad vlen (hexBytes ofs), sha) :: makeShalistGo vlen (ofs + size) rest

/-- `_make_shalist` from hashsplit.py: turn a stack of `(mode, sha, size)`
entries into a shalist whose names are the running byte offsets, zero
padded to the hex width of the total size; also return the total. -/
def make_shalist (l : List Entry) : List (Nat × Bytes × Oid) × Nat :=
  let total := (l.map (fun e => e.2.2)).sum
  let vlen := (hexBytes total).length
  (makeShalistGo vlen 0 l, total)

/-- `stks[i]` with python semantics for the indices the code touches
(missing levels read as empty). -/
def getS (stks : List (List Entry)) (i : Nat) : List Entry := stks.getD i []

/-- In-place update of `stks[i]`. -/
def setS (stks : List (List Entry)) (i : Nat) (v : List Entry) : List (List Entry) :=
  stks.set i v

/-- The `while len(stks) <= i+1: stks.append([])` loop of `_squish`:
extend `stks` with empty levels until its length is at least `m`. -/
def ensureLen (stks : List (List Entry)) (m : Nat) : List (List Entry) :=
  stks ++ List.replicate (m - stks.length) []

/-- Total number of entries across all stks (termination measure). -/
def totalEntries (stks : List (List Entry)) : Nat := (stks.map List.length).sum


/-- Reading any level of a stack list extended with empty levels is
unchanged. -/
theorem getS_ensureLen (stks : List (List Entry)) (m j : Nat) :
    getS (ensureLen stks m) j = getS stks j := by
  unfold getS ensureLen
  rcases Nat.lt_or_ge j stks.length with h | h
  · simp [List.getD, List.getElem?_append, h]
  · have h1 : (stks.getD j []) = [] := by
      simp [List.getD, List.getElem?_eq_none (l := stks) (by simpa using h)]
    rw [h1]
    rcases Nat.lt_or_ge (j - stks.length) (m - stks.length) with h2 | h2
    · simp [List.getD, List.getElem?_append, Nat.not_lt.mpr h, List.getElem?_replicate, h2]
    · simp [List.getD, List.getElem?_append, Nat.not_lt.mpr h,
        List.getElem?_eq_none (l := List.replicate (m - stks.length) ([] : List Entry))
          (by simpa using h2)]

/-- Length after extension is the maximum of the old length and the
requested length. -/
theorem length_ensureLen (stks : List (List Entry)) (m : Nat) :
    (ensureLen stks m).length = max stks.length m := by
  simp [ensureLen]
  omega

/-- `totalEntries` is additive over append. -/
theorem totalEntries_append (s t : List (List Entry)) :
    totalEntries (s ++ t) = totalEntries s + totalEntries t := by
  simp [totalEntries]

/-- Extending with empty levels does not change the entry count. -/
theorem totalEntries_ensureLen (stks : List (List Entry)) (m : Nat) :
    totalEntries (ensureLen stks m) = totalEntries stks := by
  unfold ensureLen
  rw [totalEntries_append]
  have : totalEntries (List.replicate (m - stks.length) ([] : List Entry)) = 0 := by
    simp [totalEntries, List.map_replicate]
  omega

/-- Entry count after a `set` in range: the old level is replaced by the
new one. -/
theorem totalEntries_setS (s : List (List Entry)) (i : Nat) (v : List Entry)
    (h : i < s.length) :
    totalEntries (setS s i v) + (getS s i).length = totalEntries s + v.length := by
  induction s generalizing i with
  | nil => simp at h
  | cons a s ih =>
    cases i with
    | zero => simp [setS, getS, totalEntries]; omega
    | succ i =>
      have h' : i < s.length := by simpa using h
      have := ih i h'
      simp [setS, getS, totalEntries] at this ⊢
      omega

/-- Reading back the level just set. -/
theorem getS_setS_self (s : List (List Entry)) (i : Nat) (v : List Entry)
    (h : i < s.length) : getS (setS s i v) i = v := by
  simp [getS, setS, List.getD, List.getElem?_set_self, h]

/-- Reading another level after a `set`. -/
theorem getS_setS_ne (s : List (List Entry)) (i j : Nat) (v : List Entry)
    (h : i ≠ j) : getS (setS s i v) j = getS s j := by
  simp [getS, setS, List.getD, List.getElem?_set_ne h]

/-- The tree entry `(GIT_MODE_TREE, tree, size)` that materializing a
stack pushes to the level above. -/
def treeEntryOf (si : List Entry) : Entry :=
  (GIT_MODE_TREE, Oid.tree (make_shalist si).1, (make_shalist si).2)

/-- One iteration of the `_squish` loop body at level `i`: ensure the
level above exists; a single-entry stack is promoted unchanged; a
non-empty stack is materialized as one tree entry pushed to the level
above; the stack at `i` is cleared. -/
def squishStep (stks : List (List Entry)) (i : Nat) : List (List Entry) :=
  setS
    (if (getS (ensureLen stks (i + 2)) i).length = 1 then
      setS (ensureLen stks (i + 2)) (i + 1)
        (getS (ensureLen stks (i + 2)) (i + 1) ++ getS (ensureLen stks (i + 2)) i)
    else if (getS (ensureLen stks (i + 2)) i).length ≠ 0 then
      setS (ensureLen stks (i + 2)) (i + 1)
        (getS (ensureLen stks (i + 2)) (i + 1) ++ [treeEntryOf (getS (ensureLen stks (i + 2)) i)])
    else ensureLen stks (i + 2))
    i []

/-- Characterization of a squish step on a single-entry stack: the entry
is promoted unchanged (no tree object is made for it). -/
theorem squishStep_promote (stks : List (List Entry)) (i : Nat)
    (h : (getS stks i).length = 1) :
    squishStep stks i =
      setS (setS (ensureLen stks (i + 2)) (i + 1)
        (getS (ensureLen stks (i + 2)) (i + 1) ++ getS stks i)) i [] := by
  unfold squishStep
  rw [getS_ensureLen, if_pos h, getS_ensureLen]

/-- Characterization of a squish step on a stack with at least two
entries: the stack is materialized as a single tree entry. -/
theorem squishStep_materialize (stks : List (List Entry)) (i : Nat)
    (h : 2 ≤ (getS stks i).length) :
    squishStep stks i =
      setS (setS (ensureLen stks (i + 2)) (i + 1)
        (getS (ensureLen stks (i + 2)) (i + 1) ++ [treeEntryOf (getS stks i)])) i [] := by
  unfold squishStep
  rw [getS_ensureLen, if_neg (by omega), if_pos (by omega), getS_ensureLen]

/-- Characterization of a squish step on an empty stack: only the level
above is (possibly) created. -/
theorem squishStep_empty (stks : List (List Entry)) (i : Nat)
    (h : (getS stks i).length = 0) :
    squishStep stks i = setS (ensureLen stks (i + 2)) i [] := by
  unfold squishStep
  rw [getS_ensureLen, if_neg (by omega), if_neg (by omega)]

/-- A squish step never increases the entry count by more than the one
tree entry it pushes, and consumes the stack at level `i`. -/
theorem totalEntries_squishStep (stks : List (List Entry)) (i : Nat) :
    totalEntries (squishStep stks i) + (getS stks i).length ≤ totalEntries stks + 1 := by
  have hlen1 : (ensureLen stks (i + 2)).length = max stks.length (i + 2) := length_ensureLen ..
  have hi : i < (ensureLen stks (i + 2)).length := by rw [hlen1]; omega
  have hi1 : i + 1 < (ensureLen stks (i + 2)).length := by rw [hlen1]; omega
  have hgi := getS_ensureLen stks (i + 2) i
  have ht := totalEntries_ensureLen stks (i + 2)
  rcases Nat.lt_or_ge (getS stks i).length 2 with h2 | h2
  · interval_cases h : (getS stks i).length
    · rw [squishStep_empty stks i h]
      have hset := totalEntries_setS (ensureLen stks (i + 2)) i [] hi
      rw [hgi, h] at hset
      simp only [List.length_nil] at hset
      omega
    · rw [squishStep_promote stks i h]
      have hset1 := totalEntries_setS (ensureLen stks (i + 2)) (i + 1)
        (getS (ensureLen stks (i + 2)) (i + 1) ++ getS stks i) hi1
      have hset2 := totalEntries_setS
        (setS (ensureLen stks (i + 2)) (i + 1)
          (getS (ensureLen stks (i + 2)) (i + 1) ++ getS stks i)) i []
        (by simpa [setS] using hi)
      rw [getS_setS_ne _ _ _ _ (by omega), hgi] at hset2
      simp only [List.length_append, h] at hset1
      simp only [List.length_nil] at hset2
      omega
  · rw [squishStep_materialize stks i h2]
    have hset1 := totalEntries_setS (ensureLen stks (i + 2)) (i + 1)
      (getS (ensureLen stks (i + 2)) (i + 1) ++ [treeEntryOf (getS stks i)]) hi1
    have hset2 := totalEntries_setS
      (setS (ensureLen stks (i + 2)) (i + 1)
        (getS (ensureLen stks (i + 2)) (i + 1) ++ [treeEntryOf (getS stks i)])) i []
      (by simpa [setS] using hi)
    rw [getS_setS_ne _ _ _ _ (by omega), hgi] at hset2
    simp only [List.length_append, List.length_singleton] at hset1
    simp only [List.length_nil] at hset2
    omega

/-- With at least two entries at level `i`, a squish step trades them
for exactly one tree entry. -/
theorem totalEntries_squishStep_eq (stks : List (List Entry)) (i : Nat)
    (h2 : 2 ≤ (getS stks i).length) :
    totalEntries (squishStep stks i) + (getS stks i).length = totalEntries stks + 1 := by
  have hlen1 : (ensureLen stks (i + 2)).length = max stks.length (i + 2) := length_ensureLen ..
  have hi : i < (ensureLen stks (i + 2)).length := by rw [hlen1]; omega
  have hi1 : i + 1 < (ensureLen stks (i + 2)).length := by rw [hlen1]; omega
  have hgi := getS_ensureLen stks (i + 2) i
  have ht := totalEntries_ensureLen stks (i + 2)
  rw [squishStep_materialize stks i h2]
  have hset1 := totalEntries_setS (ensureLen stks (i + 2)) (i + 1)
    (getS (ensureLen stks (i + 2)) (i + 1) ++ [treeEntryOf (getS stks i)]) hi1
  have hset2 := totalEntries_setS
    (setS (ensureLen stks (i + 2)) (i + 1)
      (getS (ensureLen stks (i + 2)) (i + 1) ++ [treeEntryOf (getS stks i)])) i []
    (by simpa [setS] using hi)
  rw [getS_setS_ne _ _ _ _ (by omega), hgi] at hset2
  simp only [List.length_append, List.length_singleton] at hset1
  simp only [List.length_nil] at hset2
  omega

/-- A squish step never increases the total entry count. -/
theorem totalEntries_squishStep_le (stks : List (List Entry)) (i : Nat) :
    totalEntries (squishStep stks i) ≤ totalEntries stks := by
  rcases Nat.eq_zero_or_pos (getS stks i).length with h0 | hpos
  · rw [squishStep_empty stks i h0]
    have hlen1 : (ensureLen stks (i + 2)).length = max stks.length (i + 2) := length_ensureLen ..
    have hi : i < (ensureLen stks (i + 2)).length := by rw [hlen1]; omega
    have hset := totalEntries_setS (ensureLen stks (i + 2)) i [] hi
    rw [getS_ensureLen, h0, totalEntries_ensureLen] at hset
    simp only [List.length_nil] at hset
    omega
  · have := totalEntries_squishStep stks i
    omega

/-- The `_squish` loop of hashsplit.py, starting at level `i`: squish
while `i < n` or the stack at `i` has reached `MAX_PER_TREE` entries. -/
def squishFrom (stks : List (List Entry)) (i n : Nat) : List (List Entry) :=
  if h : i < n ∨ MAX_PER_TREE ≤ (getS stks i).length then
    squishFrom (squishStep stks i) (i + 1) n
  else stks
termination_by (n - i) + totalEntries stks
decreasing_by
  rcases h with h | h
  · have := totalEntries_squishStep_le stks i
    omega
  · have := totalEntries_squishStep_eq stks i (by unfold MAX_PER_TREE at h; omega)
    unfold MAX_PER_TREE at h
    omega

/-- `_squish(maketree, stks, n)` from hashsplit.py. -/
def squish (stks : List (List Entry)) (n : Nat) : List (List Entry) :=
  squishFrom stks 0 n

/-- Append a freshly split chunk to stack level 0, as the main loop of
`split_to_shalist` does (`stks[0].append((GIT_MODE_FILE, sha, size))`). -/
def pushChunk (stks : List (List Entry)) (c : Bytes) : List (List Entry) :=
  setS stks 0 (getS stks 0 ++ [(GIT_MODE_FILE, Oid.blob c, c.length)])

/-- Main loop of `split_to_shalist` (fanout path): push each chunk as a
blob entry onto level 0 and squish up to the chunk level.  The chunk
stream `(buf, level)` is the output of the native rolling-hash splitter,
which is taken here as an arbitrary input sequence. -/
def splitLoop : List (Bytes × Nat) → List (List Entry) → List (List Entry)
  | [], stks => stks
  | (c, level) :: rest, stks => splitLoop rest (squish (pushChunk stks c) level)

/-- `split_to_shalist` from hashsplit.py on the fanout path: run the
main loop from the initial `[[]]`, squish everything to the top level,
and name the top stack with `_make_shalist`. -/
def split_to_shalist (chunks : List (Bytes × Nat)) : List (Nat × Bytes × Oid) :=
  let stks := splitLoop chunks [[]]
  let stks2 := squish stks (stks.length - 1)
  (make_shalist (stks2.getLastD [])).1

/-- `split_to_blob_or_tree` from hashsplit.py: a single shalist entry is
returned as `(mode, sha)`; no entries yield the empty blob; otherwise a
tree is made from the whole shalist. -/
def split_to_blob_or_tree (chunks : List (Bytes × Nat)) : Nat × Oid :=
  match split_to_shalist chunks with
  | [(mode, _, sha)] => (mode, sha)
  | [] => (GIT_MODE_FILE, Oid.blob [])
  | _ => (GIT_MODE_TREE, Oid.tree (split_to_shalist chunks))

mutual

/-- The blob chunks at the leaves of an object, in order. -/
def leavesOf : Oid → List Bytes
  | .blob b => [b]
  | .tree sl => leavesOfList sl

/-- The blob chunks at the leaves of a shalist, in order. -/
def leavesOfList : List (Nat × Bytes × Oid) → List Bytes
  | [] => []
  | e :: rest => leavesOf e.2.2 ++ leavesOfList rest

end

/-- The blob chunks at the leaves of one stack, in order. -/
def stackLeaves (s : List Entry) : List Bytes :=
  match s with
  | [] => []
  | e :: rest => leavesOf e.2.1 ++ stackLeaves rest

/-- The blob chunks held by a whole stack list, highest level first
(matching the in-order leaf sequence of the tree being built). -/
def allLeaves : List (List Entry) → List Bytes
  | [] => []
  | s :: rest => allLeaves rest ++ stackLeaves s

/-- `stackLeaves` is additive over append. -/
theorem stackLeaves_append (s t : List Entry) :
    stackLeaves (s ++ t) = stackLeaves s ++ stackLeaves t := by
  induction s with
  | nil => simp [stackLeaves]
  | cons e s ih => simp [stackLeaves, ih]

/-- `allLeaves` over an append: higher levels (the second part) come
first. -/
theorem allLeaves_append (s t : List (List Entry)) :
    allLeaves (s ++ t) = allLeaves t ++ allLeaves s := by
  induction s with
  | nil => simp [allLeaves]
  | cons a s ih => simp [allLeaves, ih]

/-- Empty levels hold no leaves. -/
theorem allLeaves_replicate_nil (k : Nat) :
    allLeaves (List.replicate k []) = [] := by
  induction k with
  | zero => rfl
  | succ k ih => simp [List.replicate, allLeaves, ih, stackLeaves]

/-- Extending the stack list with empty levels preserves the leaves. -/
theorem allLeaves_ensureLen (stks : List (List Entry)) (m : Nat) :
    allLeaves (ensureLen stks m) = allLeaves stks := by
  unfold ensureLen
  rw [allLeaves_append, allLeaves_replicate_nil]
  rfl

/-- The names produced by `_make_shalist` do not change which oids the
shalist references: its leaves are the stack's leaves. -/
theorem leavesOfList_makeShalistGo (vlen ofs : Nat) (l : List Entry) :
    leavesOfList (makeShalistGo vlen ofs l) = stackLeaves l := by
  induction l generalizing ofs with
  | nil => rfl
  | cons e rest ih =>
    obtain ⟨mode, sha, size⟩ := e
    simp [makeShalistGo, leavesOfList, stackLeaves, ih]

/-- The leaves of the tree entry materialized from a stack are exactly
the leaves of that stack. -/
theorem stackLeaves_treeEntryOf (si : List Entry) :
    stackLeaves [treeEntryOf si] = stackLeaves si := by
  simp [treeEntryOf, stackLeaves, leavesOf, make_shalist, leavesOfList_makeShalistGo]

/-- Clearing a level that is already empty does not change the leaves. -/
theorem allLeaves_setS_nil (s : List (List Entry)) (i : Nat)
    (h : getS s i = []) : allLeaves (setS s i []) = allLeaves s := by
  induction s generalizing i with
  | nil => rfl
  | cons a s ih =>
    cases i with
    | zero =>
      simp only [getS, List.getD] at h
      simp at h
      simp [setS, h]
    | succ i =>
      have h' : getS s i = [] := by simpa [getS, List.getD] using h
      simp only [setS, List.set, allLeaves]
      rw [show (List.set s i []) = setS s i [] from rfl, ih i h']

/-- Key surgery lemma: push (any entries carrying the same leaves as
level `i`) onto level `i+1` and clear level `i`; the leaf sequence is
unchanged. -/
theorem allLeaves_push_clear (s : List (List Entry)) (i : Nat) (w : List Entry)
    (h : i + 1 < s.length) (hw : stackLeaves w = stackLeaves (getS s i)) :
    allLeaves (setS (setS s (i + 1) (getS s (i + 1) ++ w)) i []) = allLeaves s := by
  induction s generalizing i with
  | nil => simp at h
  | cons a s ih =>
    cases i with
    | zero =>
      cases s with
      | nil => simp at h
      | cons b s' =>
        have ha : getS (a :: b :: s') 0 = a := rfl
        have hb : getS (a :: b :: s') 1 = b := rfl
        rw [ha] at hw
        simp only [setS, List.set, hb, allLeaves, stackLeaves_append, hw]
        simp [stackLeaves]
    | succ i =>
      have h' : i + 1 < s.length := by simpa using h
      have hw' : stackLeaves w = stackLeaves (getS s i) := by
        simpa [getS, List.getD] using hw
      have hgetS : getS (a :: s) (i + 2) = getS s (i + 1) := rfl
      simp only [setS, List.set, hgetS, allLeaves]
      rw [show ∀ v, (List.set s (i+1) v) = setS s (i+1) v from fun _ => rfl]
      rw [show ∀ t v, (List.set t i v) = setS t i v from fun _ _ => rfl]
      rw [ih i h' hw']

/-- A squish step preserves the in-order leaf sequence. -/
theorem allLeaves_squishStep (stks : List (List Entry)) (i : Nat) :
    allLeaves (squishStep stks i) = allLeaves stks := by
  have hlen1 : (ensureLen stks (i + 2)).length = max stks.length (i + 2) := length_ensureLen ..
  have hi1 : i + 1 < (ensureLen stks (i + 2)).length := by rw [hlen1]; omega
  have hgi := getS_ensureLen stks (i + 2) i
  have hle := allLeaves_ensureLen stks (i + 2)
  rcases Nat.lt_or_ge (getS stks i).length 2 with h2 | h2
  · rcases Nat.lt_or_ge (getS stks i).length 1 with h0 | h1
    · have h : (getS stks i).length = 0 := by omega
      rw [squishStep_empty stks i h]
      rw [allLeaves_setS_nil _ _ (by rw [hgi]; exact List.length_eq_zero.mp h), hle]
    · have h : (getS stks i).length = 1 := by omega
      rw [squishStep_promote stks i h, ← hgi]
      rw [allLeaves_push_clear _ _ _ hi1 rfl, hle]
  · rw [squishStep_materialize stks i h2, ← hgi]
    rw [allLeaves_push_clear _ _ _ hi1 (by rw [stackLeaves_treeEntryOf]), hle]

/-- The stack at the squished level is empty after the step. -/
theorem getS_squishStep_self (stks : List (List Entry)) (i : Nat) :
    getS (squishStep stks i) i = [] := by
  have hlen1 : (ensureLen stks (i + 2)).length = max stks.length (i + 2) := length_ensureLen ..
  have hi : i < (ensureLen stks (i + 2)).length := by rw [hlen1]; omega
  unfold squishStep
  split
  · exact getS_setS_self _ _ _ (by simpa [setS] using hi)
  · split
    · exact getS_setS_self _ _ _ (by simpa [setS] using hi)
    · exact getS_setS_self _ _ _ hi

/-- A squish step touches only levels `i` and `i+1`. -/
theorem getS_squishStep_ne (stks : List (List Entry)) (i j : Nat)
    (hji : j ≠ i) (hji1 : j ≠ i + 1) :
    getS (squishStep stks i) j = getS stks j := by
  have hgj := getS_ensureLen stks (i + 2) j
  unfold squishStep
  split
  · rw [getS_setS_ne _ _ _ _ (fun h => hji h.symm),
      getS_setS_ne _ _ _ _ (fun h => hji1 h.symm), hgj]
  · split
    · rw [getS_setS_ne _ _ _ _ (fun h => hji h.symm),
        getS_setS_ne _ _ _ _ (fun h => hji1 h.symm), hgj]
    · rw [getS_setS_ne _ _ _ _ (fun h => hji h.symm), hgj]

/-- The length of the stack list after a squish step. -/
theorem length_squishStep (stks : List (List Entry)) (i : Nat) :
    (squishStep stks i).length = max stks.length (i + 2) := by
  have hlen1 : (ensureLen stks (i + 2)).length = max stks.length (i + 2) := length_ensureLen ..
  unfold squishStep
  split
  · simpa [setS]
  · split
    · simpa [setS]
    · simpa [setS]

/-- The `_squish` loop preserves the in-order leaf sequence. -/
theorem allLeaves_squishFrom (stks : List (List Entry)) (i n : Nat) :
    allLeaves (squishFrom stks i n) = allLeaves stks := by
  induction stks, i, n using squishFrom.induct with
  | case1 stks i n h ih => rw [squishFrom, dif_pos h, ih, allLeaves_squishStep]
  | case2 stks i n h => rw [squishFrom, dif_neg h]

/-- After squishing up to level `n`, no stack holds `MAX_PER_TREE` or
more entries, provided the loop will visit (or the precondition already
bounds) every level: levels below `i` were already cleared by earlier
iterations, and levels the loop can never visit were already bounded. -/
theorem squishFrom_bounded (stks : List (List Entry)) (i n : Nat)
    (H2 : ∀ j, j < i → (getS stks j).length < MAX_PER_TREE)
    (H : ∀ j, max n (i + 1) ≤ j → (getS stks j).length < MAX_PER_TREE) :
    ∀ j, (getS (squishFrom stks i n) j).length < MAX_PER_TREE := by
  induction stks, i, n using squishFrom.induct with
  | case1 stks i n h ih =>
    rw [squishFrom, dif_pos h]
    apply ih
    · intro j hj
      rcases Nat.lt_or_ge j i with hji | hji
      · rw [getS_squishStep_ne stks i j (by omega) (by omega)]
        exact H2 j hji
      · have : j = i := by omega
        subst this
        rw [getS_squishStep_self]
        simp [MAX_PER_TREE]
    · intro j hj
      rw [getS_squishStep_ne stks i j (by omega) (by omega)]
      exact H j (by omega)
  | case2 stks i n h =>
    rw [squishFrom, dif_neg h]
    push_neg at h
    intro j
    rcases Nat.lt_trichotomy j i with hji | hji | hji
    · exact H2 j hji
    · subst hji; exact h.2
    · exact H j (by omega)

/-- After the final squish, every level below the last is empty, and the
stack list ends exactly one level above where the loop stopped. -/
theorem squishFrom_final (stks : List (List Entry)) (i n : Nat)
    (hne : stks ≠ [])
    (hlen : stks.length ≤ max (i + 1) (n + 1))
    (hempty : ∀ j, j < i → getS stks j = []) :
    squishFrom stks i n ≠ [] ∧
      (∀ j, j + 1 < (squishFrom stks i n).length → getS (squishFrom stks i n) j = []) := by
  induction stks, i, n using squishFrom.induct with
  | case1 stks i n h ih =>
    rw [squishFrom, dif_pos h]
    apply ih
    · have := length_squishStep stks i
      intro hc
      rw [hc] at this
      simp at this
      omega
    · have := length_squishStep stks i
      omega
    · intro j hj
      rcases Nat.lt_or_ge j i with hji | hji
      · rw [getS_squishStep_ne stks i j (by omega) (by omega)]
        exact hempty j hji
      · have : j = i := by omega
        subst this
        apply getS_squishStep_self
  | case2 stks i n h =>
    rw [squishFrom, dif_neg h]
    push_neg at h
    refine ⟨hne, ?_⟩
    intro j hj
    exact hempty j (by omega)

/-- The squish loop never shrinks the stack list. -/
theorem length_squishFrom_ge (stks : List (List Entry)) (i n : Nat) :
    stks.length ≤ (squishFrom stks i n).length := by
  induction stks, i, n using squishFrom.induct with
  | case1 stks i n h ih =>
    rw [squishFrom, dif_pos h]
    have := length_squishStep stks i
    omega
  | case2 stks i n h => rw [squishFrom, dif_neg h]

/-- Pushing a chunk changes only level 0. -/
theorem getS_pushChunk_ne (stks : List (List Entry)) (c : Bytes) (j : Nat)
    (h : j ≠ 0) : getS (pushChunk stks c) j = getS stks j :=
  getS_setS_ne _ _ _ _ (fun hc => h hc.symm)

/-- Pushing a chunk appends its bytes to the leaf sequence. -/
theorem allLeaves_pushChunk (stks : List (List Entry)) (c : Bytes)
    (h : stks ≠ []) : allLeaves (pushChunk stks c) = allLeaves stks ++ [c] := by
  cases stks with
  | nil => exact absurd rfl h
  | cons a rest =>
    show allLeaves ((a ++ [(GIT_MODE_FILE, Oid.blob c, c.length)]) :: rest) = _
    simp [allLeaves, stackLeaves_append, stackLeaves, leavesOf]

/-- Pushing a chunk preserves nonemptiness of the stack list. -/
theorem pushChunk_ne (stks : List (List Entry)) (c : Bytes)
    (h : stks ≠ []) : pushChunk stks c ≠ [] := by
  cases stks with
  | nil => exact absurd rfl h
  | cons a rest => simp [pushChunk, setS]

/-- The main loop of `split_to_shalist` keeps the stack list nonempty. -/
theorem splitLoop_ne (chunks : List (Bytes × Nat)) (stks : List (List Entry))
    (h : stks ≠ []) : splitLoop chunks stks ≠ [] := by
  induction chunks generalizing stks with
  | nil => exact h
  | cons cl rest ih =>
    obtain ⟨c, level⟩ := cl
    apply ih
    intro hc
    have h1 := pushChunk_ne stks c h
    have h2 := length_squishFrom_ge (pushChunk stks c) 0 level
    rw [show squish (pushChunk stks c) level = squishFrom (pushChunk stks c) 0 level from rfl]
      at hc
    rw [hc] at h2
    simp only [List.length_nil, Nat.le_zero, List.length_eq_zero] at h2
    exact h1 h2

/-- The main loop appends exactly the chunk bytes, in order, to the leaf
sequence of the stack list. -/
theorem splitLoop_leaves (chunks : List (Bytes × Nat)) (stks : List (List Entry))
    (h : stks ≠ []) :
    allLeaves (splitLoop chunks stks) = allLeaves stks ++ chunks.map Prod.fst := by
  induction chunks generalizing stks with
  | nil => simp [splitLoop]
  | cons cl rest ih =>
    obtain ⟨c, level⟩ := cl
    show allLeaves (splitLoop rest (squish (pushChunk stks c) level)) = _
    rw [ih _ ?hne]
    case hne =>
      intro hc
      have h1 := pushChunk_ne stks c h
      have h2 := length_squishFrom_ge (pushChunk stks c) 0 level
      rw [show squish (pushChunk stks c) level = squishFrom (pushChunk stks c) 0 level from rfl]
        at hc
      rw [hc] at h2
      simp only [List.length_nil, Nat.le_zero, List.length_eq_zero] at h2
      exact h1 h2
    rw [show squish (pushChunk stks c) level = squishFrom (pushChunk stks c) 0 level from rfl]
    rw [allLeaves_squishFrom, allLeaves_pushChunk stks c h]
    simp

/-- After every squish in the main loop, every stack holds fewer than
`MAX_PER_TREE` entries. -/
theorem splitLoop_bounded (chunks : List (Bytes × Nat)) (stks : List (List Entry))
    (hb : ∀ j, (getS stks j).length < MAX_PER_TREE) :
    ∀ j, (getS (splitLoop chunks stks) j).length < MAX_PER_TREE := by
  induction chunks generalizing stks with
  | nil => exact hb
  | cons cl rest ih =>
    obtain ⟨c, level⟩ := cl
    apply ih
    apply squishFrom_bounded
    · intro j hj
      omega
    · intro j hj
      rw [getS_pushChunk_ne stks c j (by omega)]
      exact hb j

/-- If all levels below the last are empty, the whole leaf sequence is
the leaves of the last stack. -/
theorem allLeaves_lastOnly (r : List (List Entry))
    (h : ∀ j, j + 1 < r.length → getS r j = []) :
    allLeaves r = stackLeaves (r.getLastD []) := by
  induction r with
  | nil => rfl
  | cons a rest ih =>
    cases rest with
    | nil => simp [allLeaves, stackLeaves]
    | cons b rest' =>
      have ha : a = [] := h 0 (by simp)
      subst ha
      have h' : ∀ j, j + 1 < (b :: rest').length → getS (b :: rest') j = [] := by
        intro j hj
        exact h (j + 1) (by simpa using hj)
      rw [List.getLastD_cons]
      show allLeaves (b :: rest') ++ stackLeaves [] = _
      rw [ih h']
      simp [stackLeaves]

/-- `_make_shalist` keeps one shalist entry per stack entry. -/
theorem length_makeShalistGo (vlen ofs : Nat) (l : List Entry) :
    (makeShalistGo vlen ofs l).length = l.length := by
  induction l generalizing ofs with
  | nil => rfl
  | cons e rest ih =>
    obtain ⟨mode, sha, size⟩ := e
    simp [makeShalistGo, ih]

/-- The stack list after the final squish of `split_to_shalist`. -/
def finalStacks (chunks : List (Bytes × Nat)) : List (List Entry) :=
  squish (splitLoop chunks [[]]) ((splitLoop chunks [[]]).length - 1)

/-- The final top stack (`stks[-1]`) of `split_to_shalist`. -/
def topStack (chunks : List (Bytes × Nat)) : List Entry :=
  (finalStacks chunks).getLastD []

/-- `split_to_shalist` names the final top stack. -/
theorem split_to_shalist_eq_top (chunks : List (Bytes × Nat)) :
    split_to_shalist chunks = (make_shalist (topStack chunks)).1 := rfl

/-- The final top stack carries exactly the input chunks as leaves, in
order. -/
theorem topStack_leaves (chunks : List (Bytes × Nat)) :
    stackLeaves (topStack chunks) = chunks.map Prod.fst := by
  have hne : splitLoop chunks [[]] ≠ [] := splitLoop_ne chunks [[]] (by simp)
  have hlen : 1 ≤ (splitLoop chunks [[]]).length :=
    Nat.one_le_iff_ne_zero.mpr (fun hc => hne (List.length_eq_zero.mp hc))
  have hfin := squishFrom_final (splitLoop chunks [[]]) 0
    ((splitLoop chunks [[]]).length - 1) hne (by omega) (by omega)
  have hleaves : allLeaves (finalStacks chunks) = chunks.map Prod.fst := by
    show allLeaves (squishFrom (splitLoop chunks [[]]) 0 _) = _
    rw [allLeaves_squishFrom, splitLoop_leaves chunks [[]] (by simp)]
    simp [allLeaves, stackLeaves]
  rw [← hleaves]
  exact (allLeaves_lastOnly (finalStacks chunks) hfin.2).symm

/-- `_make_shalist` on an empty stack. -/
theorem make_shalist_nil : (make_shalist []).1 = [] := rfl

/-- `_make_shalist` on a single entry: the entry keeps its mode and oid,
named by offset `0`. -/
theorem make_shalist_single (e : Entry) :
    (make_shalist [e]).1 =
      [(e.1, zeroPad (hexBytes e.2.2).length (hexBytes 0), e.2.1)] := by
  obtain ⟨m, sha, sz⟩ := e
  simp [make_shalist, makeShalistGo]

/-- Entry `k` of `_make_shalist` is named by the running byte offset of
the entries before it (in hex, zero padded to the given width). -/
theorem makeShalistGo_name (vlen ofs : Nat) (l : List Entry) (k : Nat)
    (hk : k < l.length) :
    ((makeShalistGo vlen ofs l).getD k (0, [], Oid.blob [])).2.1 =
      zeroPad vlen (hexBytes (ofs + ((l.take k).map (fun e => e.2.2)).sum)) := by
  induction l generalizing ofs k with
  | nil => simp at hk
  | cons e rest ih =>
    obtain ⟨m, sha, sz⟩ := e
    cases k with
    | zero => simp [makeShalistGo, List.getD]
    | succ k =>
      have hk' : k < rest.length := by simpa using hk
      have := ih (ofs + sz) k hk'
      simp only [makeShalistGo, List.getD_cons_succ, List.take_succ_cons, List.map_cons,
        List.sum_cons] at this ⊢
      rw [this]
      ring_nf

/-- C1: `split_to_blob_or_tree` returns the single entry's `(mode, oid)`
when the final top stack has exactly one entry; returns
`(GIT_MODE_FILE, empty-blob)` when the input produced no chunks (and the
top stack is nonempty whenever there were chunks); and otherwise returns
`(GIT_MODE_TREE, tree)` for a tree whose leaves are exactly the blob
chunks, in order. -/
theorem C1_split_to_blob_or_tree (chunks : List (Bytes × Nat)) :
    (∀ e : Entry, topStack chunks = [e] →
      split_to_blob_or_tree chunks = (e.1, e.2.1)) ∧
    (chunks = [] → split_to_blob_or_tree chunks = (GIT_MODE_FILE, Oid.blob [])) ∧
    (chunks ≠ [] → topStack chunks ≠ []) ∧
    (2 ≤ (topStack chunks).length →
      split_to_blob_or_tree chunks = (GIT_MODE_TREE, Oid.tree (split_to_shalist chunks)) ∧
      leavesOf (Oid.tree (split_to_shalist chunks)) = chunks.map Prod.fst) := by
  refine ⟨?_, ?_, ?_, ?_⟩
  · intro e htop
    have hs : split_to_shalist chunks =
        [(e.1, zeroPad (hexBytes e.2.2).length (hexBytes 0), e.2.1)] := by
      rw [split_to_shalist_eq_top, htop, make_shalist_single]
    simp only [split_to_blob_or_tree, hs]
  · intro hc
    subst hc
    have htop : topStack [] = [] := by
      show (squishFrom (splitLoop [] [[]]) 0 ((splitLoop [] [[]]).length - 1)).getLastD [] = []
      rw [show splitLoop [] [[]] = [[]] from rfl]
      rw [squishFrom, dif_neg (by decide)]
      rfl
    have hs : split_to_shalist [] = [] := by
      rw [split_to_shalist_eq_top, htop, make_shalist_nil]
    simp only [split_to_blob_or_tree, hs]
  · intro hc htop
    have hlv := topStack_leaves chunks
    rw [htop] at hlv
    simp only [stackLeaves] at hlv
    have : chunks = [] := by
      cases chunks with
      | nil => rfl
      | cons a l => simp at hlv
    exact hc this
  · intro hlen
    have hlen2 : 2 ≤ (split_to_shalist chunks).length := by
      rw [split_to_shalist_eq_top]
      show 2 ≤ (makeShalistGo _ 0 (topStack chunks)).length
      rw [length_makeShalistGo]
      exact hlen
    obtain ⟨x, t, hxt⟩ : ∃ x t, split_to_shalist chunks = x :: t :=
      List.exists_cons_of_ne_nil (by
        intro hc
        rw [hc] at hlen2
        simp at hlen2)
    obtain ⟨y, t2, hyt⟩ : ∃ y t2, t = y :: t2 :=
      List.exists_cons_of_ne_nil (by
        intro hc
        rw [hc] at hxt
        rw [hxt] at hlen2
        simp at hlen2)
    rw [hyt] at hxt
    constructor
    · conv_lhs => rw [split_to_blob_or_tree]
      rw [hxt]
    · rw [split_to_shalist_eq_top]
      show leavesOfList (makeShalistGo _ 0 (topStack chunks)) = _
      rw [leavesOfList_makeShalistGo, topStack_leaves]

/-- Witness for C1 at concrete inputs: a single chunk comes back as its
blob with `GIT_MODE_FILE`; empty input yields the empty blob; two chunks
yield a tree whose leaves are the two chunks. -/
theorem C1_split_to_blob_or_tree_witness :
    split_to_blob_or_tree [([7, 8], 0)] = (GIT_MODE_FILE, Oid.blob [7, 8]) ∧
    split_to_blob_or_tree [] = (GIT_MODE_FILE, Oid.blob []) ∧
    leavesOf (Oid.tree (split_to_shalist [([7], 0), ([8], 0)])) = [[7], [8]] := by
  have e1 : squishFrom [[((GIT_MODE_FILE : Nat), Oid.blob [7, 8], 2)]] 0 0 =
      [[((GIT_MODE_FILE : Nat), Oid.blob [7, 8], 2)]] := by
    rw [squishFrom, dif_neg (by decide)]
  have htop1 : topStack [([7, 8], 0)] = [((GIT_MODE_FILE : Nat), Oid.blob [7, 8], 2)] := by
    show (squishFrom (splitLoop [([7, 8], 0)] [[]]) 0
      ((splitLoop [([7, 8], 0)] [[]]).length - 1)).getLastD [] = _
    rw [show splitLoop [([7, 8], 0)] [[]] =
        squishFrom [[((GIT_MODE_FILE : Nat), Oid.blob [7, 8], 2)]] 0 0 from rfl, e1]
    show (squishFrom [[((GIT_MODE_FILE : Nat), Oid.blob [7, 8], 2)]] 0 0).getLastD [] = _
    rw [e1]
    rfl
  have e3 : squishFrom [[((GIT_MODE_FILE : Nat), Oid.blob [7], 1),
      ((GIT_MODE_FILE : Nat), Oid.blob [8], 1)]] 0 0 =
      [[((GIT_MODE_FILE : Nat), Oid.blob [7], 1),
        ((GIT_MODE_FILE : Nat), Oid.blob [8], 1)]] := by
    rw [squishFrom, dif_neg (by decide)]
  have htop2 : topStack [([7], 0), ([8], 0)] =
      [((GIT_MODE_FILE : Nat), Oid.blob [7], 1),
       ((GIT_MODE_FILE : Nat), Oid.blob [8], 1)] := by
    show (squishFrom (splitLoop [([7], 0), ([8], 0)] [[]]) 0
      ((splitLoop [([7], 0), ([8], 0)] [[]]).length - 1)).getLastD [] = _
    have hsl : splitLoop [([7], 0), ([8], 0)] [[]] =
        [[((GIT_MODE_FILE : Nat), Oid.blob [7], 1),
          ((GIT_MODE_FILE : Nat), Oid.blob [8], 1)]] := by
      show splitLoop [([8], 0)] (squishFrom (pushChunk [[]] [7]) 0 0) = _
      rw [show pushChunk [[]] [7] = [[((GIT_MODE_FILE : Nat), Oid.blob [7], 1)]] from rfl]
      rw [show squishFrom [[((GIT_MODE_FILE : Nat), Oid.blob [7], 1)]] 0 0 =
          [[((GIT_MODE_FILE : Nat), Oid.blob [7], 1)]] from by
        rw [squishFrom, dif_neg (by decide)]]
      show squishFrom (pushChunk [[((GIT_MODE_FILE : Nat), Oid.blob [7], 1)]] [8]) 0 0 = _
      rw [show pushChunk [[((GIT_MODE_FILE : Nat), Oid.blob [7], 1)]] [8] =
          [[((GIT_MODE_FILE : Nat), Oid.blob [7], 1),
            ((GIT_MODE_FILE : Nat), Oid.blob [8], 1)]] from rfl, e3]
    rw [hsl]
    show (squishFrom [[((GIT_MODE_FILE : Nat), Oid.blob [7], 1),
      ((GIT_MODE_FILE : Nat), Oid.blob [8], 1)]] 0 0).getLastD [] = _
    rw [e3]
    rfl
  refine ⟨(C1_split_to_blob_or_tree [([7, 8], 0)]).1 _ htop1,
          (C1_split_to_blob_or_tree []).2.1 rfl, ?_⟩
  have h4 := (C1_split_to_blob_or_tree [([7], 0), ([8], 0)]).2.2.2 (by rw [htop2]; decide)
  simpa using h4.2

/-- C2: the chunk tree builder squishes stacks in ascending order; a
single-entry stack is promoted to the next level without materializing a
tree; a stack with two or more entries is materialized as one
`(GIT_MODE_TREE, tree, total_size)` entry whose children are named by
their running byte offset in hex (zero padded to the hex width of the
total) and the squished stack is cleared; and `MAX_PER_TREE` forces a
squish at any level that reaches that size, so after every squish of the
main loop (and after the final squish) no stack holds `MAX_PER_TREE` or
more entries. -/
theorem C2_squish_invariants :
    (∀ chunks j, (getS (splitLoop chunks [[]]) j).length < MAX_PER_TREE) ∧
    (∀ chunks j, (getS (finalStacks chunks) j).length < MAX_PER_TREE) ∧
    (∀ stks i, (getS stks i).length = 1 →
      squishStep stks i =
        setS (setS (ensureLen stks (i + 2)) (i + 1)
          (getS (ensureLen stks (i + 2)) (i + 1) ++ getS stks i)) i []) ∧
    (∀ stks i, 2 ≤ (getS stks i).length →
      squishStep stks i =
        setS (setS (ensureLen stks (i + 2)) (i + 1)
          (getS (ensureLen stks (i + 2)) (i + 1) ++ [treeEntryOf (getS stks i)])) i []) ∧
    (∀ l k, k < l.length →
      ((make_shalist l).1.getD k (0, [], Oid.blob [])).2.1 =
        zeroPad (hexBytes ((l.map (fun e => e.2.2)).sum)).length
          (hexBytes (((l.take k).map (fun e => e.2.2)).sum))) := by
  refine ⟨?_, ?_, squishStep_promote, squishStep_materialize, ?_⟩
  · intro chunks j
    exact splitLoop_bounded chunks [[]] (by intro j; simp [getS, MAX_PER_TREE]) j
  · intro chunks j
    have hb := splitLoop_bounded chunks [[]] (by intro j; simp [getS, MAX_PER_TREE])
    exact squishFrom_bounded (splitLoop chunks [[]]) 0 ((splitLoop chunks [[]]).length - 1)
      (by intro j hj; omega)
      (by intro j hj; exact hb j) j
  · intro l k hk
    have := makeShalistGo_name (hexBytes ((l.map (fun e => e.2.2)).sum)).length 0 l k hk
    simpa using this

/-- Witness for C2 at concrete inputs: the level-0 stack stays below
`MAX_PER_TREE` after two pushes; a one-entry stack at level 0 is
promoted; a two-entry stack is materialized; and the second entry of a
`_make_shalist` over sizes 5 and 300 is named by offset 5 padded to the
width of 305 (hex `131`). -/
theorem C2_squish_invariants_witness :
    (getS (splitLoop [([1], 0), ([2], 0)] [[]]) 0).length < MAX_PER_TREE ∧
    squishStep [[((GIT_MODE_FILE : Nat), Oid.blob [3], 1)]] 0 =
      setS (setS (ensureLen [[((GIT_MODE_FILE : Nat), Oid.blob [3], 1)]] 2) 1
        (getS (ensureLen [[((GIT_MODE_FILE : Nat), Oid.blob [3], 1)]] 2) 1 ++
          getS [[((GIT_MODE_FILE : Nat), Oid.blob [3], 1)]] 0)) 0 [] ∧
    squishStep [[((GIT_MODE_FILE : Nat), Oid.blob [3], 1),
        ((GIT_MODE_FILE : Nat), Oid.blob [4], 1)]] 0 =
      setS (setS (ensureLen [[((GIT_MODE_FILE : Nat), Oid.blob [3], 1),
          ((GIT_MODE_FILE : Nat), Oid.blob [4], 1)]] 2) 1
        (getS (ensureLen [[((GIT_MODE_FILE : Nat), Oid.blob [3], 1),
          ((GIT_MODE_FILE : Nat), Oid.blob [4], 1)]] 2) 1 ++
          [treeEntryOf (getS [[((GIT_MODE_FILE : Nat), Oid.blob [3], 1),
            ((GIT_MODE_FILE : Nat), Oid.blob [4], 1)]] 0)])) 0 [] ∧
    ((make_shalist [((GIT_MODE_FILE : Nat), Oid.blob [1], 5),
        ((GIT_MODE_FILE : Nat), Oid.blob [2], 300)]).1.getD 1
          (0, [], Oid.blob [])).2.1 = zeroPad 3 (hexBytes 5) := by
  obtain ⟨h1, _h2, h3, h4, h5⟩ := C2_squish_invariants
  refine ⟨h1 [([1], 0), ([2], 0)] 0,
    h3 [[((GIT_MODE_FILE : Nat), Oid.blob [3], 1)]] 0 (by decide),
    h4 [[((GIT_MODE_FILE : Nat), Oid.blob [3], 1),
        ((GIT_MODE_FILE : Nat), Oid.blob [4], 1)]] 0 (by decide), ?_⟩
  have := h5 [((GIT_MODE_FILE : Nat), Oid.blob [1], 5),
    ((GIT_MODE_FILE : Nat), Oid.blob [2], 300)] 1 (by decide)
  simpa [hexBytes, Nat.toDigits, Nat.toDigitsCore] using this

end Hashsplit

namespace Tree

open Hashsplit (Oid GIT_MODE_TREE GIT_MODE_FILE)

/-- Byte-string comparison: `lexLe a b` is true when `a` is
lexicographically at most `b` (python bytes comparison). -/
def lexLe : Bytes → Bytes → Bool
  | [], _ => true
  | _ :: _, [] => false
  | a :: as, b :: bs => Nat.blt a b || (a == b && lexLe as bs)

/-- `lexLe` is total. -/
theorem lexLe_total : ∀ a b : Bytes, (lexLe a b || lexLe b a) = true := by
  intro a
  induction a with
  | nil => intro b; simp [lexLe]
  | cons x xs ih =>
    intro b
    cases b with
    | nil => simp [lexLe]
    | cons y ys =>
      simp only [lexLe, Bool.or_eq_true, Bool.and_eq_true, Nat.blt_eq, beq_iff_eq]
      rcases Nat.lt_trichotomy x y with h | h | h
      · tauto
      · subst h
        have := ih ys
        simp only [Bool.or_eq_true] at this
        tauto
      · tauto

/-- `lexLe` is transitive. -/
theorem lexLe_trans : ∀ a b c : Bytes,
    lexLe a b = true → lexLe b c = true → lexLe a c = true := by
  intro a
  induction a with
  | nil => intro b c _ _; simp [lexLe]
  | cons x xs ih =>
    intro b c h1 h2
    cases b with
    | nil => simp [lexLe] at h1
    | cons y ys =>
      cases c with
      | nil => simp [lexLe] at h2
      | cons z zs =>
        simp only [lexLe, Bool.or_eq_true, Bool.and_eq_true, Nat.blt_eq, beq_iff_eq]
          at h1 h2 ⊢
        rcases h1 with h1 | ⟨hxy, h1⟩
        · rcases h2 with h2 | ⟨hyz, _⟩
          · exact Or.inl (by omega)
          · subst hyz; tauto
        · subst hxy
          rcases h2 with h2 | ⟨hyz, h2⟩
          · tauto
          · subst hyz
            exact Or.inr ⟨rfl, ih ys zs h1 h2⟩

/-- Modelled from the spec: `shalist_item_sort_key` from git.py (not in
src/): an entry whose mode is a directory sorts as if its name had `/`
(byte 47) appended; other entries sort by their name.  `S_ISDIR(mode)`
is `mode & 0o170000 == 0o40000`. -/
def shalist_item_sort_key (mode : Nat) (name : Bytes) : Bytes :=
  if mode &&& 0o170000 = 0o40000 then name ++ [47] else name

/-- Modelled from the spec: `mangle_name` from git.py (not in src/): a
path stored as a chunk tree (mode and gitmode differ) has `.bup`
appended to its entry name; otherwise the name is unchanged. -/
def mangle_name (name : Bytes) (mode gitmode : Nat) : Bytes :=
  if mode ≠ gitmode then name ++ [46, 98, 117, 112] else name

/-- Modelled from the spec: `tree_encode` from git.py (not in src/)
sorts the shalist it is given by `shalist_item_sort_key` before
producing the tree object; the written tree's children are that sorted
sequence. -/
def tree_encode_children (sl : List (Nat × Bytes × Oid)) : List (Nat × Bytes × Oid) :=
  sl.mergeSort (fun a b => lexLe (shalist_item_sort_key a.1 a.2.1)
    (shalist_item_sort_key b.1 b.2.1))

/-- `new_tree` of the repository writer: encode and write the tree
object. -/
def new_tree (sl : List (Nat × Bytes × Oid)) : Oid :=
  Oid.tree (tree_encode_children sl)

/-- The children recorded in a written tree object. -/
def treeChildren : Oid → List (Nat × Bytes × Oid)
  | Oid.blob _ => []
  | Oid.tree sl => sl

/-- A directory-frame entry, as appended by `StackDir.append`: `meta` is
the encoded metadata record for the entry (the `Metadata` object itself
lives in metadata.py, outside src/, so only its encoded bytes appear
here). -/
structure TreeItem where
  name : Bytes
  mode : Nat
  gitmode : Nat
  oid : Oid
  meta : Bytes

/-- `StackDir._clean` from tree.py: walk the frame's items, keeping the
first item of each name and dropping (with one recorded error each)
later duplicates; returns the kept items and the error count. -/
def cleanGo (seen : List Bytes) : List TreeItem → List TreeItem × Nat
  | [] => ([], 0)
  | it :: rest =>
      if it.name ∈ seen then
        let r := cleanGo seen rest
        (r.1, r.2 + 1)
      else
        let r := cleanGo (it.name :: seen) rest
        (it :: r.1, r.2)

/-- The items kept by `StackDir._clean`. -/
def clean (items : List TreeItem) : List TreeItem := (cleanGo [] items).1

/-- The number of duplicate-path errors recorded by `StackDir._clean`. -/
def cleanErrors (items : List TreeItem) : Nat := (cleanGo [] items).2

/-- The `.bupm` entry name. -/
def bupmName : Bytes := [46, 98, 117, 112, 109]

/-- `_write_tree` from tree.py (flat mode, metadata not omitted): build
the metadata stream (directory record first, then the non-tree entries
in sort-key order, stably sorted), store it through the hash splitter
(`splitMeta`, whose chunking is done by the native splitter), prepend
the `.bupm` entry, append the mangled entries, and write the tree. -/
def write_tree (splitMeta : Bytes → Nat × Oid) (dirMeta : Bytes)
    (items : List TreeItem) : Oid :=
  let metalist := (([], dirMeta) ::
    (items.filter (fun e => e.mode ≠ GIT_MODE_TREE)).map
      (fun e => (shalist_item_sort_key e.mode e.name, e.meta)))
  let sorted := metalist.mergeSort (fun a b => lexLe a.1 b.1)
  let mo := splitMeta ((sorted.map (fun m => m.2)).flatten)
  new_tree ((mo.1, bupmName, mo.2) ::
    items.map (fun e => (e.gitmode, mangle_name e.name e.mode e.gitmode, e.oid)))

/-- `StackDir._write` from tree.py (flat mode): clean the frame, sort
its items by name, and write the tree. -/
def StackDir_write (splitMeta : Bytes → Nat × Oid) (dirMeta : Bytes)
    (items : List TreeItem) : Oid :=
  write_tree splitMeta dirMeta
    ((clean items).mergeSort (fun a b => lexLe a.name b.name))

/-- C3: every tree object written for a directory frame (flat mode) has
its children sorted by `shalist_item_sort_key`: a tree-mode entry sorts
as if its name had `/` appended.  Holds for any mix of file and
subdirectory entries and any metadata splitter. -/
theorem C3_tree_children_sorted (splitMeta : Bytes → Nat × Oid) (dirMeta : Bytes)
    (items : List TreeItem) :
    List.Pairwise
      (fun a b : Nat × Bytes × Oid =>
        lexLe (shalist_item_sort_key a.1 a.2.1) (shalist_item_sort_key b.1 b.2.1) = true)
      (treeChildren (StackDir_write splitMeta dirMeta items)) := by
  show List.Pairwise _ (tree_encode_children _)
  exact @List.sorted_mergeSort (Nat × Bytes × Oid)
    (fun a b => lexLe (shalist_item_sort_key a.1 a.2.1) (shalist_item_sort_key b.1 b.2.1))
    (fun a b c hab hbc => lexLe_trans _ _ _ hab hbc)
    (fun a b => lexLe_total _ _)
    _

/-- Auxiliary characterization of `StackDir._clean` for any set of
already-seen names. -/
theorem cleanGo_spec (items : List TreeItem) (seen : List Bytes) :
    (cleanGo seen items).1.Sublist items ∧
    (∀ it2 ∈ (cleanGo seen items).1, it2.name ∉ seen ∧
      items.find? (fun e => e.name == it2.name) = some it2) ∧
    (∀ it ∈ items, it.name ∈ seen ∨ it.name ∈ (cleanGo seen items).1.map TreeItem.name) ∧
    (cleanGo seen items).2 + (cleanGo seen items).1.length = items.length := by
  induction items generalizing seen with
  | nil => simp [cleanGo]
  | cons it rest ih =>
    by_cases h : it.name ∈ seen
    · have heq : cleanGo seen (it :: rest) =
        ((cleanGo seen rest).1, (cleanGo seen rest).2 + 1) := by
        simp [cleanGo, h]
      obtain ⟨ihs, ihf, ihc, ihn⟩ := ih seen
      refine ⟨?_, ?_, ?_, ?_⟩
      · rw [heq]
        exact ihs.cons it
      · intro it2 hit2
        rw [heq] at hit2
        obtain ⟨hns, hfind⟩ := ihf it2 hit2
        refine ⟨hns, ?_⟩
        rw [List.find?_cons]
        have hne : (it.name == it2.name) = false := by
          apply beq_eq_false_iff_ne.mpr
          intro hc
          exact hns (hc ▸ h)
        simp only [hne]
        exact hfind
      · intro it3 hit3
        rcases List.mem_cons.mp hit3 with rfl | hit3
        · exact Or.inl h
        · rw [heq]
          exact ihc it3 hit3
      · rw [heq]
        simp only [List.length_cons]
        omega
    · have heq : cleanGo seen (it :: rest) =
        (it :: (cleanGo (it.name :: seen) rest).1, (cleanGo (it.name :: seen) rest).2) := by
        simp [cleanGo, h]
      obtain ⟨ihs, ihf, ihc, ihn⟩ := ih (it.name :: seen)
      refine ⟨?_, ?_, ?_, ?_⟩
      · rw [heq]
        exact ihs.cons₂ it
      · intro it2 hit2
        rw [heq] at hit2
        rcases List.mem_cons.mp hit2 with rfl | hit2
        · refine ⟨h, ?_⟩
          rw [List.find?_cons]
          simp
        · obtain ⟨hns, hfind⟩ := ihf it2 hit2
          have hne : it2.name ≠ it.name := fun hc => hns (by rw [hc]; exact List.mem_cons_self _ _)
          refine ⟨fun hc => hns (List.mem_cons_of_mem _ hc), ?_⟩
          rw [List.find?_cons]
          have hne2 : (it.name == it2.name) = false :=
            beq_eq_false_iff_ne.mpr (fun hc => hne hc.symm)
          simp only [hne2]
          exact hfind
      · intro it3 hit3
        rcases List.mem_cons.mp hit3 with rfl | hit3
        · rw [heq]
          simp
        · rcases ihc it3 hit3 with hseen | hmap
          · rcases List.mem_cons.mp hseen with hname | hseen'
            · rw [heq]
              right
              simp [hname]
            · exact Or.inl hseen'
          · rw [heq]
            right
            simp only [List.map_cons, List.mem_cons]
            exact Or.inr hmap
      · rw [heq]
        simp only [List.length_cons]
        omega

/-- The names kept by `_clean` are distinct. -/
theorem cleanGo_nodup (items : List TreeItem) (seen : List Bytes) :
    ((cleanGo seen items).1.map TreeItem.name).Nodup := by
  induction items generalizing seen with
  | nil => simp [cleanGo]
  | cons it rest ih =>
    by_cases h : it.name ∈ seen
    · simpa [cleanGo, h] using ih seen
    · have heq : (cleanGo seen (it :: rest)).1 = it :: (cleanGo (it.name :: seen) rest).1 := by
        simp [cleanGo, h]
      rw [heq]
      simp only [List.map_cons, List.nodup_cons]
      refine ⟨?_, ih (it.name :: seen)⟩
      intro hc
      obtain ⟨it2, hit2, hname⟩ := List.mem_map.mp hc
      have := ((cleanGo_spec rest (it.name :: seen)).2.1 it2 hit2).1
      exact this (hname ▸ List.mem_cons_self _ _)

/-- With distinct names nothing is dropped and no error is recorded. -/
theorem cleanGo_of_nodup (items : List TreeItem) (seen : List Bytes)
    (hnd : (items.map TreeItem.name).Nodup)
    (hdisj : ∀ it ∈ items, it.name ∉ seen) :
    cleanGo seen items = (items, 0) := by
  induction items generalizing seen with
  | nil => simp [cleanGo]
  | cons it rest ih =>
    have h : it.name ∉ seen := hdisj it (List.mem_cons_self _ _)
    simp only [List.map_cons, List.nodup_cons] at hnd
    have hrest : cleanGo (it.name :: seen) rest = (rest, 0) := by
      apply ih (it.name :: seen) hnd.2
      intro it3 hit3
      intro hc
      rcases List.mem_cons.mp hc with hname | hseen'
      · exact hnd.1 (List.mem_map.mpr ⟨it3, hit3, hname⟩)
      · exact hdisj it3 (List.mem_cons_of_mem _ hit3) hseen'
    simp [cleanGo, h, hrest]

/-- C9: within one directory frame, only the first occurrence of each
name is kept (in order, as a sublist of the appended items), one error
is recorded per dropped duplicate, entries with distinct names are all
kept with no error, and every kept entry appears (mangled) in the tree
written on pop. -/
theorem C9_clean_duplicates (splitMeta : Bytes → Nat × Oid) (dirMeta : Bytes)
    (items : List TreeItem) :
    (clean items).Sublist items ∧
    ((clean items).map TreeItem.name).Nodup ∧
    (∀ it ∈ items, it.name ∈ (clean items).map TreeItem.name) ∧
    (∀ it2 ∈ clean items, items.find? (fun e => e.name == it2.name) = some it2) ∧
    cleanErrors items + (clean items).length = items.length ∧
    ((items.map TreeItem.name).Nodup → clean items = items ∧ cleanErrors items = 0) ∧
    (∀ it2 ∈ clean items,
      (it2.gitmode, mangle_name it2.name it2.mode it2.gitmode, it2.oid) ∈
        treeChildren (StackDir_write splitMeta dirMeta items)) := by
  obtain ⟨hs, hf, hc, hn⟩ := cleanGo_spec items []
  refine ⟨hs, cleanGo_nodup items [], ?_, ?_, hn, ?_, ?_⟩
  · intro it hit
    rcases hc it hit with hseen | hmap
    · simp at hseen
    · exact hmap
  · intro it2 hit2
    exact (hf it2 hit2).2
  · intro hnd
    have := cleanGo_of_nodup items [] hnd (by simp)
    constructor
    · show (cleanGo [] items).1 = items
      rw [this]
    · show (cleanGo [] items).2 = 0
      rw [this]
  · intro it2 hit2
    show _ ∈ tree_encode_children _
    apply (List.mergeSort_perm _ _).mem_iff.mpr
    apply List.mem_cons_of_mem
    apply List.mem_map.mpr
    refine ⟨it2, ?_, rfl⟩
    exact (List.mergeSort_perm (clean items) _).mem_iff.mpr hit2

/-- Witness for C9 at a concrete frame: items named `a`, `b`, `a`
(the third a duplicate) keep `a` and `b` with one recorded error, and
with distinct names `a`, `b` nothing is dropped. -/
theorem C9_clean_duplicates_witness :
    (clean [⟨[97], 1, 1, Oid.blob [1], []⟩, ⟨[98], 1, 1, Oid.blob [2], []⟩,
      ⟨[97], 1, 1, Oid.blob [3], []⟩]).map TreeItem.name = [[97], [98]] ∧
    cleanErrors [⟨[97], 1, 1, Oid.blob [1], []⟩, ⟨[98], 1, 1, Oid.blob [2], []⟩,
      ⟨[97], 1, 1, Oid.blob [3], []⟩] = 1 ∧
    clean [⟨[97], 1, 1, Oid.blob [1], []⟩, ⟨[98], 1, 1, Oid.blob [2], []⟩] =
      [⟨[97], 1, 1, Oid.blob [1], []⟩, ⟨[98], 1, 1, Oid.blob [2], []⟩] ∧
    ([97] : Bytes) ∈ (clean [⟨[97], 1, 1, Oid.blob [1], []⟩, ⟨[98], 1, 1, Oid.blob [2], []⟩,
      ⟨[97], 1, 1, Oid.blob [3], []⟩]).map TreeItem.name := by
  have h1 := C9_clean_duplicates (fun b => (GIT_MODE_FILE, Oid.blob b)) []
    [⟨[97], 1, 1, Oid.blob [1], []⟩, ⟨[98], 1, 1, Oid.blob [2], []⟩,
     ⟨[97], 1, 1, Oid.blob [3], []⟩]
  have h2 := C9_clean_duplicates (fun b => (GIT_MODE_FILE, Oid.blob b)) []
    [⟨[97], 1, 1, Oid.blob [1], []⟩, ⟨[98], 1, 1, Oid.blob [2], []⟩]
  have hclean : clean [⟨[97], 1, 1, Oid.blob [1], []⟩, ⟨[98], 1, 1, Oid.blob [2], []⟩,
      ⟨[97], 1, 1, Oid.blob [3], []⟩] =
      [⟨[97], 1, 1, Oid.blob [1], []⟩, ⟨[98], 1, 1, Oid.blob [2], []⟩] := by
    show (cleanGo [] _).1 = _
    simp [cleanGo]
  have herr : cleanErrors [⟨[97], 1, 1, Oid.blob [1], []⟩, ⟨[98], 1, 1, Oid.blob [2], []⟩,
      ⟨[97], 1, 1, Oid.blob [3], []⟩] = 1 := by
    show (cleanGo [] _).2 = _
    simp [cleanGo]
  refine ⟨by rw [hclean]; rfl, herr, ?_, ?_⟩
  · exact (h2.2.2.2.2.2.1 (by simp)).1
  · exact h1.2.2.1 ⟨[97], 1, 1, Oid.blob [1], []⟩ (by simp)

end Tree

namespace Enc

/-- 1 GiB: the most the container stores as a single object
(`MAX_ENC_BLOB` from encrypted.py). -/
def MAX_ENC_BLOB : Nat := 1024 * 1024 * 1024

/-- Modelled from the spec: the big-endian fixed-width byte rendering
used by `struct.pack` for the nonce (`>Q`, 8 bytes). -/
def beBytes : Nat → Nat → Bytes
  | 0, _ => []
  | k + 1, v => beBytes k (v / 256) ++ [v % 256]

/-- The nonce `struct.pack('>B15xQ', kind, offset)` from
`EncryptedContainer.nonce`: one domain byte, 15 zero bytes, then the
8-byte big-endian file offset. -/
def nonceBytes (kind offset : Nat) : Bytes :=
  kind :: (List.replicate 15 0 ++ beBytes 8 offset)

/-- `beBytes` produces exactly `k` bytes. -/
theorem length_beBytes (k v : Nat) : (beBytes k v).length = k := by
  induction k generalizing v with
  | zero => rfl
  | succ k ih => simp [beBytes, ih]

/-- Below `256^k`, the big-endian rendering is injective. -/
theorem beBytes_inj (k : Nat) : ∀ a b : Nat, a < 256 ^ k → b < 256 ^ k →
    beBytes k a = beBytes k b → a = b := by
  induction k with
  | zero =>
    intro a b ha hb _
    simp [pow_zero] at ha hb
    omega
  | succ k ih =>
    intro a b ha hb h
    simp only [beBytes] at h
    have hlen : (beBytes k (a / 256)).length = (beBytes k (b / 256)).length := by
      rw [length_beBytes, length_beBytes]
    obtain ⟨h1, h2⟩ := List.append_inj h hlen
    have hmod : a % 256 = b % 256 := by simpa using h2
    have hdivlt : a / 256 < 256 ^ k := by
      have : a < 256 ^ k * 256 := by
        calc a < 256 ^ (k + 1) := ha
        _ = 256 ^ k * 256 := by ring
      omega
    have hdivlt2 : b / 256 < 256 ^ k := by
      have : b < 256 ^ k * 256 := by
        calc b < 256 ^ (k + 1) := hb
        _ = 256 ^ k * 256 := by ring
      omega
    have hdiv : a / 256 = b / 256 := ih (a / 256) (b / 256) hdivlt hdivlt2 h1
    omega

/-- Nonce construction is injective: equal nonces force equal domain
bytes, and equal offsets whenever offsets are representable in 64
bits (the `>Q` pack raises on larger offsets). -/
theorem nonceBytes_inj (k1 o1 k2 o2 : Nat) (h1 : o1 < 2 ^ 64) (h2 : o2 < 2 ^ 64)
    (h : nonceBytes k1 o1 = nonceBytes k2 o2) : k1 = k2 ∧ o1 = o2 := by
  simp only [nonceBytes, List.cons.injEq] at h
  obtain ⟨hk, ht⟩ := h
  refine ⟨hk, ?_⟩
  have := List.append_inj ht (by simp)
  have hbe : beBytes 8 o1 = beBytes 8 o2 := this.2
  have h256 : (2 : Nat) ^ 64 = 256 ^ 8 := by norm_num
  exact beBytes_inj 8 o1 o2 (h256 ▸ h1) (h256 ▸ h2) hbe

/-- Modelled from the spec: the continuation bytes (high bit set) of the
big-endian base-128 vuint, most significant group first (vint.py is not
in src/). -/
def vuintHi (v : Nat) : Bytes :=
  if h : v = 0 then [] else vuintHi (v / 128) ++ [128 + v % 128]
termination_by v
decreasing_by exact Nat.div_lt_self (Nat.pos_of_ne_zero h) (by omega)

/-- Modelled from the spec: `vint.pack('V', x)`: base-128 groups of `x`,
big-endian, the high bit set on every byte but the last. -/
def vuintEnc (x : Nat) : Bytes := vuintHi (x / 128) ++ [x % 128]

/-- `len(pack('V', MAX_ENC_BLOB))` from encrypted.py. -/
def MAX_ENC_BLOB_VUINT_LEN : Nat := (vuintEnc MAX_ENC_BLOB).length

/-- Every continuation byte has the high bit set and is a byte. -/
theorem vuintHi_bounds (v : Nat) : ∀ d ∈ vuintHi v, 128 ≤ d ∧ d < 256 := by
  induction v using Nat.strong_induction_on with
  | _ v ih =>
    intro d hd
    rw [vuintHi] at hd
    by_cases h : v = 0
    · simp [h] at hd
    · rw [dif_neg h] at hd
      rcases List.mem_append.mp hd with hmem | hmem
      · exact ih (v / 128) (Nat.div_lt_self (Nat.pos_of_ne_zero h) (by omega)) d hmem
      · simp at hmem
        omega

/-- Length of the continuation part: zero for zero, one more than the
quotient's otherwise. -/
theorem length_vuintHi_le (k : Nat) : ∀ v : Nat, v < 128 ^ k → (vuintHi v).length ≤ k := by
  induction k with
  | zero =>
    intro v hv
    simp [pow_zero] at hv
    rw [vuintHi, dif_pos hv]
    simp
  | succ k ih =>
    intro v hv
    rw [vuintHi]
    by_cases h : v = 0
    · simp [h]
    · rw [dif_neg h]
      have : v / 128 < 128 ^ k := by
        have : v < 128 ^ k * 128 := by
          calc v < 128 ^ (k + 1) := hv
          _ = 128 ^ k * 128 := by ring
        omega
      have := ih (v / 128) this
      simp only [List.length_append, List.length_singleton]
      omega

/-- Conversely a large value needs many continuation bytes. -/
theorem length_vuintHi_ge (k : Nat) : ∀ v : Nat, 128 ^ k ≤ v → k + 1 ≤ (vuintHi v).length := by
  induction k with
  | zero =>
    intro v hv
    have h : v ≠ 0 := by
      have : (1 : Nat) ≤ v := by simpa using hv
      omega
    rw [vuintHi, dif_neg h]
    simp
  | succ k ih =>
    intro v hv
    have h : v ≠ 0 := by
      have h1 : (1 : Nat) ≤ 128 ^ (k + 1) := Nat.one_le_pow _ _ (by omega)
      omega
    rw [vuintHi, dif_neg h]
    have hdiv : 128 ^ k ≤ v / 128 := by
      have : 128 ^ k * 128 ≤ v := by
        calc 128 ^ k * 128 = 128 ^ (k + 1) := by ring
        _ ≤ v := hv
      omega
    have := ih (v / 128) hdiv
    simp only [List.length_append, List.length_singleton]
    omega

/-- The vuint of sizes below `2^28` fits in 4 bytes. -/
theorem vuintEnc_short (x : Nat) (h : x < 2 ^ 28) : (vuintEnc x).length ≤ 4 := by
  have hq : x / 128 < 128 ^ 3 := by
    have : x < 128 ^ 3 * 128 := by
      calc x < 2 ^ 28 := h
      _ = 128 ^ 3 * 128 := by norm_num
    omega
  have := length_vuintHi_le 3 (x / 128) hq
  simp only [vuintEnc, List.length_append, List.length_singleton]
  omega

/-- The vuint of sizes `2^28` and above needs at least 5 bytes. -/
theorem vuintEnc_long (x : Nat) (h : 2 ^ 28 ≤ x) : 5 ≤ (vuintEnc x).length := by
  have hq : 128 ^ 3 ≤ x / 128 := by
    have : 128 ^ 3 * 128 ≤ x := by
      calc 128 ^ 3 * 128 = 2 ^ 28 := by norm_num
      _ ≤ x := h
    omega
  have := length_vuintHi_ge 3 (x / 128) hq
  simp only [vuintEnc, List.length_append, List.length_singleton]
  omega

/-- `MAX_ENC_BLOB_VUINT_LEN` is 5. -/
theorem vuint_cap : MAX_ENC_BLOB_VUINT_LEN = 5 := by
  show (vuintEnc MAX_ENC_BLOB).length = 5
  have hle : (vuintHi (MAX_ENC_BLOB / 128)).length ≤ 4 := by
    apply length_vuintHi_le
    show MAX_ENC_BLOB / 128 < 128 ^ 4
    have h1 : MAX_ENC_BLOB = 1073741824 := by norm_num [MAX_ENC_BLOB]
    have h2 : (128 : Nat) ^ 4 = 268435456 := by norm_num
    omega
  have hge : 4 ≤ (vuintHi (MAX_ENC_BLOB / 128)).length := by
    have h3 : 128 ^ 3 ≤ MAX_ENC_BLOB / 128 := by
      have h1 : MAX_ENC_BLOB = 1073741824 := by norm_num [MAX_ENC_BLOB]
      have h2 : (128 : Nat) ^ 3 = 2097152 := by norm_num
      omega
    have := length_vuintHi_ge 3 _ h3
    omega
  rw [vuintEnc, List.length_append, List.length_singleton]
  omega

/-- The vuint never exceeds 5 bytes for the writer's admissible sizes. -/
theorem vuintEnc_le_five (x : Nat) (h : x ≤ MAX_ENC_BLOB) : (vuintEnc x).length ≤ 5 := by
  have hq : x / 128 < 128 ^ 4 := by
    have : x < 128 ^ 4 * 128 := by
      have h1 : MAX_ENC_BLOB = 1073741824 := by norm_num [MAX_ENC_BLOB]
      have h2 : (128 : Nat) ^ 4 * 128 = 34359738368 := by norm_num
      omega
    omega
  have := length_vuintHi_le 4 (x / 128) hq
  simp only [vuintEnc, List.length_append, List.length_singleton]
  omega

/-- One byte read through `EncryptedVuintReader` (encrypted.py): read
the file byte at index `i` past the seek position, XOR it with keystream
byte `i`, and fail (the `offs < len(vuint_cs)` assertion, checked after
the offset increment) as soon as `i + 1` reaches the keystream length. -/
def encReadByte (bytes cs : Bytes) (i : Nat) : Option Nat :=
  match bytes.get? i, cs.get? i with
  | some b, some c => if i + 1 < cs.length then some (b ^^^ c) else none
  | _, _ => none

/-- Reading past the keystream cap always fails. -/
theorem encReadByte_none (bytes cs : Bytes) (i : Nat) (h : ¬ i + 1 < cs.length) :
    encReadByte bytes cs i = none := by
  unfold encReadByte
  rcases bytes.get? i with _ | b <;> rcases cs.get? i with _ | c <;> simp [h]

/-- A successful byte read stays below the keystream cap. -/
theorem encReadByte_lt (bytes cs : Bytes) (i : Nat) (b : Nat)
    (h : encReadByte bytes cs i = some b) : i + 1 < cs.length := by
  by_contra hc
  rw [encReadByte_none bytes cs i hc] at h
  exact Option.noConfusion h

/-- Modelled from the spec: the loop of `read_vuint` (vint.py is not in
src/): while the byte has its continuation bit set, shift the
accumulated 7-bit groups; the first byte without it ends the number.
The accumulator updates are written arithmetically
(`(acc | (b & 0x7f)) << 7` is `(acc + b % 128) * 128` and the final
`acc | b` is `acc + b`, as `acc` is always a multiple of 128 and bytes
are below 256).  Returns the value and the number of bytes consumed. -/
def readVuintLoop (bytes cs : Bytes) (i acc : Nat) : Option (Nat × Nat) :=
  match h : encReadByte bytes cs i with
  | none => none
  | some b =>
      if 128 ≤ b then readVuintLoop bytes cs (i + 1) ((acc + b % 128) * 128)
      else some (acc + b, i + 1)
termination_by cs.length - i
decreasing_by
  have := encReadByte_lt bytes cs i b h
  omega

/-- Modelled from the spec: `read_vuint` (vint.py is not in src/),
reading through the `EncryptedVuintReader`: a first byte of zero is the
number zero; otherwise run the loop. -/
def read_vuint_enc (bytes cs : Bytes) : Option (Nat × Nat) :=
  match encReadByte bytes cs 0 with
  | none => none
  | some b0 => if b0 = 0 then some (0, 1) else readVuintLoop bytes cs 0 0

/-- Byte-wise XOR of two byte strings (`crypto_stream_xor`). -/
def xorBytes (a b : Bytes) : Bytes := List.zipWith (fun x y => x ^^^ y) a b

/-- The cryptographic and compression primitives used by the container
(libsodium and zlib, external to the repository): an abstract codec the
container theorems quantify over. -/
structure Codec where
  compress : Bytes → Bytes
  decompress : Bytes → Bytes
  sbEnc : Bytes → Bytes → Bytes
  sbDec : Bytes → Bytes → Option Bytes
  stream : Bytes → Nat → Bytes

/-- `EncryptedContainer._write` (OBJ branch) from encrypted.py: compress
the type byte and payload, secret-box it under the data nonce for the
current offset (the end of the file written so far), check the 1 GiB
assertion, and append the keystream-encrypted size vuint followed by the
ciphertext. -/
def writeObj (c : Codec) (file : Bytes) (objtype : Nat) (data : Bytes) : Option Bytes :=
  let z := c.compress (objtype :: data)
  let ct := c.sbEnc (nonceBytes 0 file.length) z
  if MAX_ENC_BLOB < ct.length then none
  else
    let vu := vuintEnc ct.length
    some (file ++ (xorBytes vu (c.stream (nonceBytes 128 file.length) vu.length) ++ ct))

/-- `EncryptedContainer.read` from encrypted.py: seek to `offset`,
generate the 5-byte size keystream, parse the encrypted vuint through
`EncryptedVuintReader`, fail when the size exceeds 1 GiB, read that many
ciphertext bytes, secret-box decrypt, decompress, split off the type
byte. -/
def readObj (c : Codec) (file : Bytes) (offset : Nat) : Option (Nat × Bytes) :=
  let cs := c.stream (nonceBytes 128 offset) MAX_ENC_BLOB_VUINT_LEN
  match read_vuint_enc (file.drop offset) cs with
  | none => none
  | some (sz, consumed) =>
      if MAX_ENC_BLOB < sz then none
      else
        let ct := (file.drop (offset + consumed)).take sz
        if ct.length ≠ sz then none
        else
          match c.sbDec (nonceBytes 0 offset) ct with
          | none => none
          | some z =>
              match c.decompress z with
              | [] => none
              | t :: rest => some (t, rest)

/-- Reading byte `i` of the keystream-encrypted vuint through the
encrypted reader recovers vuint byte `i` (or hits the cap assertion). -/
theorem encReadByte_xor (vu cs : Bytes) (rest : Bytes) (i : Nat)
    (hlen : vu.length ≤ cs.length) (hi : i < vu.length) :
    encReadByte (xorBytes vu (cs.take vu.length) ++ rest) cs i =
      if i + 1 < cs.length then some (vu.getD i 0) else none := by
  have hkslen : (cs.take vu.length).length = vu.length := by
    simp [List.length_take, Nat.min_eq_left hlen]
  have hziplen : (xorBytes vu (cs.take vu.length)).length = vu.length := by
    simp [xorBytes, hkslen]
  have hics : i < cs.length := by omega
  have hizip : i < (xorBytes vu (cs.take vu.length)).length := by omega
  have hbytes : (xorBytes vu (cs.take vu.length) ++ rest).get? i =
      some (vu.getD i 0 ^^^ cs.getD i 0) := by
    rw [List.get?_eq_getElem?, List.getElem?_append, if_pos hizip]
    simp only [xorBytes]
    rw [List.getElem?_zipWith]
    rw [List.getElem?_eq_getElem hi,
      List.getElem?_eq_getElem (show i < (cs.take vu.length).length by omega)]
    simp only [Option.map_some, Option.bind_some]
    congr 2
    · rw [List.getD_eq_getElem?_getD, List.getElem?_eq_getElem hi]
      rfl
    · rw [List.getElem_take, List.getD_eq_getElem?_getD, List.getElem?_eq_getElem hics]
      rfl
  have hcs : cs.get? i = some (cs.getD i 0) := by
    rw [List.get?_eq_getElem?, List.getElem?_eq_getElem hics]
    rw [List.getD_eq_getElem?_getD, List.getElem?_eq_getElem hics]
    rfl
  unfold encReadByte
  rw [hbytes, hcs]
  show (if i + 1 < cs.length
    then some ((vu.getD i 0 ^^^ cs.getD i 0) ^^^ cs.getD i 0) else none) = _
  by_cases h : i + 1 < cs.length
  · rw [if_pos h, if_pos h]
    congr 1
    exact Nat.xor_cancel_right _ _
  · rw [if_neg h, if_neg h]

/-- The vuint loop over continuation digits followed by a final byte:
reads exactly the digits, and returns the accumulated value. -/
theorem readVuintLoop_ok (bytes cs : Bytes) (H : Bytes) (b : Nat) :
    ∀ i acc,
    (∀ d ∈ H, 128 ≤ d ∧ d < 256) → b < 128 →
    (∀ k, k < H.length + 1 → encReadByte bytes cs (i + k) =
      if i + k + 1 < cs.length then some ((H ++ [b]).getD k 0) else none) →
    i + H.length + 1 < cs.length →
    readVuintLoop bytes cs i acc =
      some (H.foldl (fun a d => (a + d % 128) * 128) acc + b, i + H.length + 1) := by
  induction H with
  | nil =>
    intro i acc _ hb hbytes hfit
    have h0 := hbytes 0 (by omega)
    simp only [Nat.add_zero, List.nil_append, List.getD_cons_zero] at h0
    rw [if_pos (show i + 1 < cs.length by simp only [List.length_nil] at hfit; omega)] at h0
    rw [readVuintLoop]
    split
    · rename_i heq
      rw [h0] at heq
      exact Option.noConfusion heq
    · rename_i b2 heq
      rw [h0] at heq
      have hb2 : b = b2 := Option.some.inj heq
      subst hb2
      rw [if_neg (by omega)]
      simp
  | cons d H2 ih =>
    intro i acc hdig hb hbytes hfit
    have h0 := hbytes 0 (by omega)
    simp only [Nat.add_zero, List.cons_append, List.getD_cons_zero] at h0
    rw [if_pos (show i + 1 < cs.length by simp only [List.length_cons] at hfit; omega)] at h0
    rw [readVuintLoop]
    split
    · rename_i heq
      rw [h0] at heq
      exact Option.noConfusion heq
    · rename_i b2 heq
      rw [h0] at heq
      have hb2 : d = b2 := Option.some.inj heq
      subst hb2
      have hd : 128 ≤ d := (hdig d (List.mem_cons_self _ _)).1
      rw [if_pos hd]
      rw [ih (i + 1) ((acc + d % 128) * 128)
        (fun x hx => hdig x (List.mem_cons_of_mem _ hx)) hb
        (fun k hk => by
          have := hbytes (k + 1) (by simp only [List.length_cons]; omega)
          have harith : i + (k + 1) = i + 1 + k := by omega
          rw [harith] at this
          simpa using this)
        (by simp only [List.length_cons] at hfit; omega)]
      simp only [List.foldl_cons, List.length_cons]
      congr 2
      omega

/-- When the keystream cap falls inside the continuation digits, the
loop hits the reader assertion and fails. -/
theorem readVuintLoop_fail (bytes cs : Bytes) (H : Bytes) :
    ∀ i acc,
    (∀ d ∈ H, 128 ≤ d) →
    cs.length ≤ i + H.length + 1 →
    (∀ k, k < H.length → encReadByte bytes cs (i + k) =
      if i + k + 1 < cs.length then some (H.getD k 0) else none) →
    readVuintLoop bytes cs i acc = none := by
  induction H with
  | nil =>
    intro i acc _ hsz _
    rw [readVuintLoop]
    have hnone : encReadByte bytes cs i = none :=
      encReadByte_none bytes cs i (by simp only [List.length_nil] at hsz; omega)
    split
    · rfl
    · rename_i b2 heq
      rw [hnone] at heq
      exact Option.noConfusion heq
  | cons d H2 ih =>
    intro i acc hdig hsz hbytes
    rw [readVuintLoop]
    by_cases h : i + 1 < cs.length
    · have h0 := hbytes 0 (by simp)
      simp only [Nat.add_zero, List.getD_cons_zero] at h0
      rw [if_pos h] at h0
      split
      · rfl
      · rename_i b2 heq
        rw [h0] at heq
        have hb2 : d = b2 := Option.some.inj heq
        subst hb2
        have hd : 128 ≤ d := hdig d (List.mem_cons_self _ _)
        rw [if_pos hd]
        apply ih (i + 1) _ (fun x hx => hdig x (List.mem_cons_of_mem _ hx))
        · simp only [List.length_cons] at hsz
          omega
        · intro k hk
          have := hbytes (k + 1) (by simp only [List.length_cons]; omega)
          have harith : i + (k + 1) = i + 1 + k := by omega
          rw [harith] at this
          simpa using this
    · have hnone : encReadByte bytes cs i = none := encReadByte_none bytes cs i h
      split
      · rfl
      · rename_i b2 heq
        rw [hnone] at heq
        exact Option.noConfusion heq

/-- Folding the continuation digits accumulates the base-128 value. -/
theorem foldl_vuintHi (v : Nat) : ∀ acc : Nat,
    (vuintHi v).foldl (fun a d => (a + d % 128) * 128) acc =
      acc * 128 ^ (vuintHi v).length + v * 128 := by
  induction v using Nat.strong_induction_on with
  | _ v ih =>
    intro acc
    by_cases h : v = 0
    · rw [vuintHi, dif_pos h]
      simp [h]
    · conv_lhs => rw [vuintHi, dif_neg h]
      conv_rhs => rw [vuintHi, dif_neg h]
      rw [List.foldl_append]
      have hv : v / 128 < v := Nat.div_lt_self (Nat.pos_of_ne_zero h) (by omega)
      rw [ih (v / 128) hv acc]
      simp only [List.foldl_cons, List.foldl_nil, List.length_append, List.length_singleton]
      have hmod : (128 + v % 128) % 128 = v % 128 := by omega
      rw [hmod]
      have hdm := Nat.div_add_mod v 128
      have hpow : (128 : Nat) ^ ((vuintHi (v / 128)).length + 1) =
          128 ^ (vuintHi (v / 128)).length * 128 := by ring
      rw [hpow]
      ring_nf
      omega

/-- `getD` on an append, inside the first part. -/
theorem getD_append_lt (H : Bytes) (t : Bytes) (k : Nat) (hk : k < H.length) :
    (H ++ t).getD k 0 = H.getD k 0 := by
  rw [List.getD_eq_getElem?_getD, List.getD_eq_getElem?_getD,
    List.getElem?_append, if_pos hk]

/-- The vuint of zero is the single byte 0. -/
theorem vuintEnc_zero : vuintEnc 0 = [0] := by
  rw [vuintEnc, vuintHi, dif_pos (by norm_num)]
  rfl

/-- The first byte of the vuint of a nonzero value is nonzero. -/
theorem vuintEnc_head_ne_zero (sz : Nat) (h : sz ≠ 0) : (vuintEnc sz).getD 0 0 ≠ 0 := by
  rw [vuintEnc]
  cases hH : vuintHi (sz / 128) with
  | nil =>
    have hdiv : sz / 128 = 0 := by
      by_contra hc
      rw [vuintHi, dif_neg hc] at hH
      exact absurd hH (by simp)
    have hlt : sz < 128 := by omega
    simp only [List.nil_append, List.getD_cons_zero]
    omega
  | cons d H2 =>
    have hd : 128 ≤ d := by
      have := vuintHi_bounds (sz / 128) d (by rw [hH]; exact List.mem_cons_self _ _)
      omega
    simp only [List.cons_append, List.getD_cons_zero]
    omega

/-- Parsing a well-formed keystream-encrypted vuint that fits below the
keystream cap yields the value and consumes exactly its bytes. -/
theorem read_vuint_enc_ok (cs rest : Bytes) (sz : Nat)
    (hlt : (vuintEnc sz).length < cs.length) :
    read_vuint_enc (xorBytes (vuintEnc sz) (cs.take (vuintEnc sz).length) ++ rest) cs =
      some (sz, (vuintEnc sz).length) := by
  have hlen1 : 1 ≤ (vuintEnc sz).length := by
    rw [vuintEnc]
    simp
  have h0 := encReadByte_xor (vuintEnc sz) cs rest 0 (by omega) (by omega)
  rw [if_pos (by omega)] at h0
  unfold read_vuint_enc
  rw [h0]
  show (if (vuintEnc sz).getD 0 0 = 0 then some ((0 : Nat), (1 : Nat))
    else readVuintLoop (xorBytes (vuintEnc sz) (cs.take (vuintEnc sz).length) ++ rest)
      cs 0 0) = _
  by_cases hsz : sz = 0
  · subst hsz
    rw [if_pos (by rw [vuintEnc_zero]; rfl)]
    rw [vuintEnc_zero]
    rfl
  · rw [if_neg (vuintEnc_head_ne_zero sz hsz)]
    have hloop := readVuintLoop_ok
      (xorBytes (vuintEnc sz) (cs.take (vuintEnc sz).length) ++ rest) cs
      (vuintHi (sz / 128)) (sz % 128) 0 0
      (vuintHi_bounds (sz / 128)) (by omega)
      (fun k hk => by
        have hx := encReadByte_xor (vuintEnc sz) cs rest k (by omega)
          (by rw [vuintEnc]; simp only [List.length_append, List.length_singleton]; omega)
        simpa [vuintEnc] using hx)
      (by
        have : (vuintEnc sz).length = (vuintHi (sz / 128)).length + 1 := by
          rw [vuintEnc]
          simp
        omega)
    rw [hloop]
    rw [foldl_vuintHi]
    have hdm := Nat.div_add_mod sz 128
    have hlen2 : (vuintEnc sz).length = (vuintHi (sz / 128)).length + 1 := by
      rw [vuintEnc]
      simp
    congr 1
    rw [Prod.ext_iff]
    constructor
    · show 0 * 128 ^ (vuintHi (sz / 128)).length + sz / 128 * 128 + sz % 128 = sz
      omega
    · show 0 + (vuintHi (sz / 128)).length + 1 = (vuintEnc sz).length
      omega

/-- When the encrypted vuint needs as many bytes as the whole keystream,
the reader's offset assertion fires and parsing fails. -/
theorem read_vuint_enc_fail (cs rest : Bytes) (sz : Nat)
    (heq : cs.length = (vuintEnc sz).length) :
    read_vuint_enc (xorBytes (vuintEnc sz) (cs.take (vuintEnc sz).length) ++ rest) cs = none := by
  have hlen2 : (vuintEnc sz).length = (vuintHi (sz / 128)).length + 1 := by
    rw [vuintEnc]
    simp
  by_cases h1 : (vuintEnc sz).length = 1
  · unfold read_vuint_enc
    have hnone : encReadByte (xorBytes (vuintEnc sz) (cs.take (vuintEnc sz).length) ++ rest)
        cs 0 = none := encReadByte_none _ _ _ (by omega)
    rw [hnone]
  · have hH : 1 ≤ (vuintHi (sz / 128)).length := by omega
    have hsz : sz ≠ 0 := by
      intro hc
      subst hc
      rw [vuintEnc_zero] at h1
      simp at h1
    have h0 := encReadByte_xor (vuintEnc sz) cs rest 0 (by omega) (by omega)
    rw [if_pos (by omega)] at h0
    unfold read_vuint_enc
    rw [h0]
    show (if (vuintEnc sz).getD 0 0 = 0 then some ((0 : Nat), (1 : Nat))
      else readVuintLoop (xorBytes (vuintEnc sz) (cs.take (vuintEnc sz).length) ++ rest)
        cs 0 0) = _
    rw [if_neg (vuintEnc_head_ne_zero sz hsz)]
    apply readVuintLoop_fail _ cs (vuintHi (sz / 128)) 0 0
      (fun d hd => (vuintHi_bounds (sz / 128) d hd).1)
      (by omega)
    intro k hk
    have hx := encReadByte_xor (vuintEnc sz) cs rest k (by omega) (by omega)
    simp only [Nat.zero_add]
    rw [hx]
    have hget : (vuintEnc sz).getD k 0 = (vuintHi (sz / 128)).getD k 0 := by
      rw [vuintEnc, getD_append_lt _ _ _ hk]
    rw [hget]

/-- Dropping past an appended prefix. -/
theorem drop_append_add {α : Type} (a b : List α) (k : Nat) :
    (a ++ b).drop (a.length + k) = b.drop k := by
  induction a with
  | nil => simp
  | cons x a ih => simpa [Nat.succ_add] using ih

/-- C5: reading back an object written to an encrypted container.  The
writer accepts any compressed-and-encrypted size up to `MAX_ENC_BLOB`
(1 GiB), but the reader recovers the object only when that size is
below `2^28` (a 4-byte vuint): for sizes of `2^28` and above the size
prefix needs 5 vuint bytes and `EncryptedVuintReader`'s offset
assertion (`offs < len(vuint_cs)`, checked after the increment) fires
on the fifth byte, so the read fails instead of succeeding. -/
theorem C5_container_read_roundtrip (c : Codec)
    (hz : ∀ d, c.decompress (c.compress d) = d)
    (hsb : ∀ n pt, c.sbDec n (c.sbEnc n pt) = some pt)
    (hkslen : ∀ n k, (c.stream n k).length = k)
    (hpre : ∀ n a b, a ≤ b → c.stream n a = (c.stream n b).take a)
    (file : Bytes) (objtype : Nat) (data : Bytes) (newfile : Bytes)
    (hw : writeObj c file objtype data = some newfile) :
    ((c.sbEnc (nonceBytes 0 file.length) (c.compress (objtype :: data))).length < 2 ^ 28 →
      readObj c newfile file.length = some (objtype, data)) ∧
    (2 ^ 28 ≤ (c.sbEnc (nonceBytes 0 file.length) (c.compress (objtype :: data))).length →
      readObj c newfile file.length = none) := by
  have hct : ¬ MAX_ENC_BLOB <
      (c.sbEnc (nonceBytes 0 file.length) (c.compress (objtype :: data))).length := by
    intro hbig
    unfold writeObj at hw
    rw [if_pos hbig] at hw
    exact Option.noConfusion hw
  have hnew : newfile = file ++
      (xorBytes (vuintEnc (c.sbEnc (nonceBytes 0 file.length)
          (c.compress (objtype :: data))).length)
        (c.stream (nonceBytes 128 file.length)
          (vuintEnc (c.sbEnc (nonceBytes 0 file.length)
            (c.compress (objtype :: data))).length).length) ++
        c.sbEnc (nonceBytes 0 file.length) (c.compress (objtype :: data))) := by
    unfold writeObj at hw
    rw [if_neg hct] at hw
    exact (Option.some.inj hw).symm
  set ct := c.sbEnc (nonceBytes 0 file.length) (c.compress (objtype :: data)) with hctdef
  set vu := vuintEnc ct.length with hvudef
  set cs := c.stream (nonceBytes 128 file.length) MAX_ENC_BLOB_VUINT_LEN with hcsdef
  have hcs5 : cs.length = 5 := by rw [hcsdef, hkslen, vuint_cap]
  have hvu5 : vu.length ≤ 5 := vuintEnc_le_five _ (by omega)
  have hks : c.stream (nonceBytes 128 file.length) vu.length = cs.take vu.length := by
    rw [hcsdef]
    exact hpre _ _ _ (by rw [vuint_cap]; omega)
  have hdrop : newfile.drop file.length = xorBytes vu (cs.take vu.length) ++ ct := by
    rw [hnew, hks, List.drop_left]
  have hziplen : (xorBytes vu (cs.take vu.length)).length = vu.length := by
    have : (cs.take vu.length).length = vu.length := by
      rw [List.length_take, hcs5]
      omega
    simp [xorBytes, this]
  have hdrop2 : newfile.drop (file.length + vu.length) = ct := by
    rw [hnew, hks]
    rw [show (xorBytes vu (cs.take vu.length) ++ ct) =
      (xorBytes vu (cs.take vu.length)) ++ ct from rfl]
    rw [← List.append_assoc]
    have : (file ++ xorBytes vu (cs.take vu.length)).length = file.length + vu.length := by
      rw [List.length_append, hziplen]
    rw [← this, show (file ++ xorBytes vu (cs.take vu.length)).length =
      (file ++ xorBytes vu (cs.take vu.length)).length + 0 from rfl, drop_append_add]
    rfl
  constructor
  · intro hsmall
    have hvu4 : vu.length ≤ 4 := vuintEnc_short _ hsmall
    have hok := read_vuint_enc_ok cs ct ct.length (by rw [← hvudef]; omega)
    rw [← hvudef] at hok
    show (match read_vuint_enc (newfile.drop file.length) cs with
      | none => none
      | some (sz, consumed) =>
          if MAX_ENC_BLOB < sz then none
          else
            let ct2 := (newfile.drop (file.length + consumed)).take sz
            if ct2.length ≠ sz then none
            else
              match c.sbDec (nonceBytes 0 file.length) ct2 with
              | none => none
              | some z =>
                  match c.decompress z with
                  | [] => none
                  | t :: rest => some (t, rest)) = some (objtype, data)
    rw [hdrop, hok]
    show (if MAX_ENC_BLOB < ct.length then none
      else
        let ct2 := (newfile.drop (file.length + vu.length)).take ct.length
        if ct2.length ≠ ct.length then none
        else
          match c.sbDec (nonceBytes 0 file.length) ct2 with
          | none => none
          | some z =>
              match c.decompress z with
              | [] => none
              | t :: rest => some (t, rest)) = some (objtype, data)
    rw [if_neg hct]
    simp only [hdrop2, List.take_length, if_neg, ite_false]
    rw [if_neg (by omega)]
    rw [hctdef, hsb]
    show (match c.decompress (c.compress (objtype :: data)) with
      | [] => none
      | t :: rest => some (t, rest)) = some (objtype, data)
    rw [hz]
  · intro hbig2
    have hvul : 5 ≤ vu.length := vuintEnc_long _ hbig2
    have hfail := read_vuint_enc_fail cs ct ct.length (by rw [← hvudef]; omega)
    rw [← hvudef] at hfail
    show (match read_vuint_enc (newfile.drop file.length) cs with
      | none => none
      | some (sz, consumed) =>
          if MAX_ENC_BLOB < sz then none
          else
            let ct2 := (newfile.drop (file.length + consumed)).take sz
            if ct2.length ≠ sz then none
            else
              match c.sbDec (nonceBytes 0 file.length) ct2 with
              | none => none
              | some z =>
                  match c.decompress z with
                  | [] => none
                  | t :: rest => some (t, rest)) = none
    rw [hdrop, hfail]

/-- XORing with a zero keystream is the identity. -/
theorem xorBytes_zero (v : Bytes) : xorBytes v (List.replicate v.length 0) = v := by
  induction v with
  | nil => rfl
  | cons x v ih =>
    simp only [List.length_cons, List.replicate, xorBytes, List.zipWith_cons_cons]
    rw [show x ^^^ 0 = x from Nat.xor_zero x]
    exact congrArg (x :: ·) ih

/-- A trivial codec instance (identity compression, append-a-16-byte-tag
secret box, all-zero keystream) used to exercise the container
theorems on concrete data. -/
def plainCodec : Codec where
  compress := fun d => d
  decompress := fun d => d
  sbEnc := fun _ pt => pt ++ List.replicate 16 0
  sbDec := fun _ ctb => some (ctb.take (ctb.length - 16))
  stream := fun _ k => List.replicate k 0

/-- The vuint of 19 is one byte. -/
theorem vuintEnc_nineteen : vuintEnc 19 = [19] := by
  rw [vuintEnc, vuintHi]
  norm_num

/-- Witness for C5 at concrete inputs: a 19-byte encrypted object
round-trips; an object whose compressed-and-encrypted size is `2^28`
(well below the 1 GiB writer limit) is accepted by the writer but the
read at its offset fails. -/
theorem C5_container_read_roundtrip_witness :
    readObj plainCodec ((19 : Nat) :: ((3 : Nat) :: 5 :: 6 :: List.replicate 16 0)) 0 =
      some (3, [5, 6]) ∧
    readObj plainCodec
      (vuintEnc (2 ^ 28) ++ ((3 : Nat) :: (List.replicate (2 ^ 28 - 17) 0 ++
        List.replicate 16 0))) 0 = none := by
  have hz : ∀ d, plainCodec.decompress (plainCodec.compress d) = d := fun d => rfl
  have hsb : ∀ n pt, plainCodec.sbDec n (plainCodec.sbEnc n pt) = some pt := by
    intro n pt
    simp only [plainCodec]
    have h : (pt ++ List.replicate 16 0).length - 16 = pt.length := by
      rw [List.length_append, List.length_replicate]
      omega
    rw [h, List.take_left]
  have hkslen : ∀ n k, (plainCodec.stream n k).length = k := by
    intro n k
    exact List.length_replicate ..
  have hpre : ∀ n a b, a ≤ b → plainCodec.stream n a = (plainCodec.stream n b).take a := by
    intro n a b hab
    show List.replicate a 0 = (List.replicate b (0 : Nat)).take a
    rw [List.take_replicate, Nat.min_eq_left hab]
  constructor
  · have hw1 : writeObj plainCodec [] 3 [5, 6] =
        some ((19 : Nat) :: ((3 : Nat) :: 5 :: 6 :: List.replicate 16 0)) := by
      simp only [writeObj]
      rw [show (plainCodec.sbEnc (nonceBytes 0 ([] : Bytes).length)
        (plainCodec.compress (3 :: [5, 6]))).length = 19 from rfl]
      rw [if_neg (by norm_num [MAX_ENC_BLOB])]
      rw [vuintEnc_nineteen]
      rfl
    have := (C5_container_read_roundtrip plainCodec hz hsb hkslen hpre [] 3 [5, 6] _ hw1).1
      (by
        show ((([3, 5, 6] ++ List.replicate 16 0)) : Bytes).length < 2 ^ 28
        rw [List.length_append, List.length_replicate]
        norm_num)
    exact this
  · have hctlen : (plainCodec.sbEnc (nonceBytes 0 ([] : Bytes).length)
        (plainCodec.compress (3 :: List.replicate (2 ^ 28 - 17) 0))).length = 2 ^ 28 := by
      show (((3 :: List.replicate (2 ^ 28 - 17) 0) ++ List.replicate 16 0) : Bytes).length =
        2 ^ 28
      rw [List.length_append, List.length_cons, List.length_replicate, List.length_replicate]
      norm_num
    have hw2 : writeObj plainCodec [] 3 (List.replicate (2 ^ 28 - 17) 0) =
        some (vuintEnc (2 ^ 28) ++ ((3 : Nat) :: (List.replicate (2 ^ 28 - 17) 0 ++
          List.replicate 16 0))) := by
      simp only [writeObj]
      rw [hctlen]
      rw [if_neg (by norm_num [MAX_ENC_BLOB])]
      rw [show plainCodec.stream (nonceBytes 128 ([] : Bytes).length) (vuintEnc (2 ^ 28)).length
          = List.replicate (vuintEnc (2 ^ 28)).length 0 from rfl]
      rw [xorBytes_zero]
      show some ([] ++ (vuintEnc (2 ^ 28) ++ ((3 :: List.replicate (2 ^ 28 - 17) 0) ++
        List.replicate 16 0))) = some (vuintEnc (2 ^ 28) ++ ((3 : Nat) ::
          (List.replicate (2 ^ 28 - 17) 0 ++ List.replicate 16 0)))
      rw [List.nil_append, List.cons_append]
    have := (C5_container_read_roundtrip plainCodec hz hsb hkslen hpre []
      3 (List.replicate (2 ^ 28 - 17) 0) _ hw2).2 (by rw [hctlen])
    exact this

/-- Writer state relevant to nonce tracking: the current file offset and
the set of nonces recorded so far (`EncryptedContainer._used_nonces`). -/
structure ECW where
  offset : Nat
  used : List Bytes

/-- `EncryptedContainer.nonce` with `write=True`: build the nonce for
the current offset, fail if it was already recorded (the
`"nonce reuse!"` assertion), otherwise record it. -/
def nonceCheck (kind : Nat) (st : ECW) : Option ECW :=
  let n := nonceBytes kind st.offset
  if n ∈ st.used then none else some ⟨st.offset, n :: st.used⟩

/-- One object write (`_write`, OBJ branch) as it touches nonces: the
secret-box nonce (domain byte 0) and the size-keystream nonce (domain
byte `0x80`) are both taken at the current offset, then the offset
advances by the number of bytes written (`encvuint ++ ciphertext`,
always positive). -/
def writeStep (len : Nat) (st : ECW) : Option ECW :=
  match nonceCheck 0 st with
  | none => none
  | some st1 =>
      match nonceCheck 128 st1 with
      | none => none
      | some st2 => some ⟨st.offset + len, st2.used⟩

/-- Header length of a data container (`ehlen 84 + 8`); the header write
records no nonce, so a fresh writer starts at this offset with no used
nonces. -/
def initECW : ECW := ⟨92, []⟩

/-- A sequence of object writes. -/
def runWrites : List Nat → ECW → Option ECW
  | [], st => some st
  | l :: ls, st =>
      match writeStep l st with
      | none => none
      | some st2 => runWrites ls st2

/-- Invariant: every recorded nonce was taken at an offset strictly
below the current one (and is one of the two domains). -/
def NonceInv (st : ECW) : Prop :=
  (∀ nb ∈ st.used, ∃ k o, (k = 0 ∨ k = 128) ∧ o < st.offset ∧ o < 2 ^ 64 ∧
    nb = nonceBytes k o) ∧ st.used.Nodup

/-- A single write never trips the nonce-reuse assertion and preserves
the invariant. -/
theorem writeStep_ok (st : ECW) (len : Nat) (hlen : 0 < len)
    (hoff : st.offset < 2 ^ 64) (hinv : NonceInv st) :
    writeStep len st = some ⟨st.offset + len,
      nonceBytes 128 st.offset :: nonceBytes 0 st.offset :: st.used⟩ ∧
    NonceInv ⟨st.offset + len,
      nonceBytes 128 st.offset :: nonceBytes 0 st.offset :: st.used⟩ := by
  obtain ⟨hdom, hnd⟩ := hinv
  have hfresh : ∀ k2, (k2 = 0 ∨ k2 = 128) → nonceBytes k2 st.offset ∉ st.used := by
    intro k2 hk2 hmem
    obtain ⟨k, o, hk, ho, ho64, hnb⟩ := hdom _ hmem
    obtain ⟨_, hoeq⟩ := nonceBytes_inj k2 st.offset k o hoff ho64 hnb
    omega
  have h0 : nonceCheck 0 st = some ⟨st.offset, nonceBytes 0 st.offset :: st.used⟩ := by
    unfold nonceCheck
    rw [if_neg (hfresh 0 (Or.inl rfl))]
  have hne : nonceBytes 128 st.offset ≠ nonceBytes 0 st.offset := by
    intro hc
    have := (nonceBytes_inj 128 st.offset 0 st.offset hoff hoff hc).1
    omega
  have h1 : nonceCheck 128 ⟨st.offset, nonceBytes 0 st.offset :: st.used⟩ =
      some ⟨st.offset, nonceBytes 128 st.offset :: nonceBytes 0 st.offset :: st.used⟩ := by
    unfold nonceCheck
    rw [if_neg (by
      intro hmem
      rcases List.mem_cons.mp hmem with hc | hc
      · exact hne hc
      · exact hfresh 128 (Or.inr rfl) hc)]
  constructor
  · unfold writeStep
    rw [h0]
    show (match nonceCheck 128 ⟨st.offset, nonceBytes 0 st.offset :: st.used⟩ with
      | none => none
      | some st2 => some (⟨st.offset + len, st2.used⟩ : ECW)) = _
    rw [h1]
  · dsimp only [NonceInv]
    constructor
    · intro nb hnb
      rcases List.mem_cons.mp hnb with rfl | hnb
      · exact ⟨128, st.offset, Or.inr rfl, by omega, hoff, rfl⟩
      · rcases List.mem_cons.mp hnb with rfl | hnb
        · exact ⟨0, st.offset, Or.inl rfl, by omega, hoff, rfl⟩
        · obtain ⟨k, o, hk, ho, ho64, hnbeq⟩ := hdom _ hnb
          exact ⟨k, o, hk, by omega, ho64, hnbeq⟩
    · refine List.nodup_cons.mpr ⟨?_, List.nodup_cons.mpr ⟨hfresh 0 (Or.inl rfl), hnd⟩⟩
      intro hmem
      rcases List.mem_cons.mp hmem with hc | hc
      · exact hne hc
      · exact hfresh 128 (Or.inr rfl) hc

/-- C6: within one container opened for writing, every object write
takes its secret-box nonce from domain byte 0 at the current offset and
its size-keystream nonce from domain byte `0x80` at the same offset;
offsets strictly increase, all recorded nonces are distinct, and the
nonce-reuse assertion never fires for any sequence of writes (of
positive sizes, with the file staying below `2^64` bytes, the range of
the 8-byte offset field). -/
theorem C6_nonce_uniqueness (lens : List Nat) (hpos : ∀ l ∈ lens, 0 < l)
    (hbound : 92 + lens.sum < 2 ^ 64) :
    (∀ st len, 0 < len → st.offset < 2 ^ 64 → NonceInv st →
      writeStep len st = some ⟨st.offset + len,
        nonceBytes 128 st.offset :: nonceBytes 0 st.offset :: st.used⟩) ∧
    ∃ st : ECW, runWrites lens initECW = some st ∧
      st.offset = 92 + lens.sum ∧ st.used.Nodup ∧
      st.used.length = 2 * lens.length := by
  constructor
  · intro st len h1 h2 h3
    exact (writeStep_ok st len h1 h2 h3).1
  · have main : ∀ (ls : List Nat) (st : ECW), (∀ l ∈ ls, 0 < l) →
        st.offset + ls.sum < 2 ^ 64 → NonceInv st →
        ∃ st2 : ECW, runWrites ls st = some st2 ∧
          st2.offset = st.offset + ls.sum ∧ st2.used.Nodup ∧
          st2.used.length = 2 * ls.length + st.used.length := by
      intro ls
      induction ls with
      | nil =>
        intro st _ _ hinv
        exact ⟨st, rfl, by simp, hinv.2, by simp⟩
      | cons l ls ih =>
        intro st hls hsum hinv
        have hl : 0 < l := hls l (List.mem_cons_self _ _)
        have hoff : st.offset < 2 ^ 64 := by
          simp only [List.sum_cons] at hsum
          omega
        obtain ⟨hstep, hinv2⟩ := writeStep_ok st l hl hoff hinv
        obtain ⟨st2, hrun, hoff2, hnd2, hlen2⟩ := ih
          ⟨st.offset + l, nonceBytes 128 st.offset :: nonceBytes 0 st.offset :: st.used⟩
          (fun x hx => hls x (List.mem_cons_of_mem _ hx))
          (by simp only [List.sum_cons] at hsum; simpa using by omega)
          hinv2
        refine ⟨st2, ?_, ?_, hnd2, ?_⟩
        · unfold runWrites
          rw [hstep]
          exact hrun
        · simp only [List.sum_cons]
          simp at hoff2
          omega
        · simp only [List.length_cons]
          simp at hlen2
          omega
    have := main lens initECW hpos (by simpa [initECW] using hbound)
      ⟨by intro nb hnb; simp [initECW] at hnb, List.nodup_nil⟩
    obtain ⟨st2, hrun, ho, hnd, hl⟩ := this
    exact ⟨st2, hrun, by simpa [initECW] using ho, hnd, by simpa using hl⟩

/-- Witness for C6 at a concrete write sequence: two writes of 10 and
20 bytes from a fresh container state succeed with four distinct
recorded nonces and a final offset of 122. -/
theorem C6_nonce_uniqueness_witness :
    ∃ st : ECW, runWrites [10, 20] initECW = some st ∧
      st.offset = 92 + [10, 20].sum ∧ st.used.Nodup ∧
      st.used.length = 2 * [10, 20].length := by
  exact (C6_nonce_uniqueness [10, 20] (by decide) (by norm_num)).2

end Enc

namespace Repo

/-- Modelled from the spec: `git.calc_hash` (git.py not in src/)
computes the SHA-1 content address of `"<kind> <len>\x00<payload>"`;
modelled as the (collision-free) preimage itself, so equal payloads get
equal addresses and distinct payloads distinct ones. -/
def calc_hash (objtype : Nat) (content : Bytes) : Bytes :=
  objtype :: content.length :: content

/-- Object addresses. -/
abbrev Sha := Bytes

/-- An open pack writer: the pack's random name, its records (each
`EncryptedContainer.write` appends one pack record and one idxwriter
entry for the same sha), and its running size. -/
structure Pack where
  name : Nat
  records : List (Nat × Sha × Bytes)
  size : Nat

/-- The shas recorded in a pack (equally: its idx entries). -/
def Pack.shas (p : Pack) : List Sha := p.records.map (fun r => r.2.1)

/-- Model of the on-the-wire size of one encrypted record (type byte,
compression and MAC overhead); only positivity matters. -/
def packRecSize (content : Bytes) : Nat := content.length + 33

/-- Append one object to an open pack. -/
def Pack.write (p : Pack) (objtype : Nat) (sha : Sha) (content : Bytes) : Pack :=
  { p with records := p.records ++ [(objtype, sha, content)],
           size := p.size + packRecSize content }

/-- `EncryptedRepo` state as far as object writing, dedup, refs and
lookup are concerned.  In the source, when `separatemeta` is false the
meta writer *is* the data writer (`self.meta_writer = self.data_writer`)
and `meta_written_objs` is the same set object as `data_written_objs`;
that aliasing is represented here by routing all metadata writes to the
data writer and data set when `separatemeta` is false, and using
`meta_own`/`meta_written_objs` only when it is true. -/
structure RepoState where
  separatemeta : Bool
  max_pack_size : Nat
  next_id : Nat
  data_writer : Option Pack
  meta_own : Option Pack
  data_written_objs : List Sha
  meta_written_objs : List Sha
  idx : List (Nat × List Sha)
  finished : List Pack
  refs : List (Bytes × Bytes)

/-- Lookup a sha in the combined idx list, returning the containing
pack idx name. -/
def idxLookup (idx : List (Nat × List Sha)) (sha : Sha) : Option Nat :=
  match idx with
  | [] => none
  | (nm, shas) :: rest => if sha ∈ shas then some nm else idxLookup rest sha

/-- The truthiness of `EncryptedRepo.exists` as used by the write paths:
check the in-memory tentative set(s), then the idx list. -/
def existsB (st : RepoState) (sha : Sha) : Bool :=
  if sha ∈ st.data_written_objs then true
  else if st.separatemeta ∧ sha ∈ st.meta_written_objs then true
  else (idxLookup st.idx sha).isSome

/-- Allocate a fresh pack (`_create_new_pack`; the name is random in the
source, a counter here). -/
def newPack (st : RepoState) : Pack × RepoState :=
  (⟨st.next_id, [], 0⟩, { st with next_id := st.next_id + 1 })

/-- `EncryptedRepo._finish`: close the writer, write its idx locally and
remotely (appending one idx file holding exactly the pack's shas), and
clear the corresponding in-memory object set. -/
def finishPack (st : RepoState) (p : Pack) (meta : Bool) : RepoState :=
  { st with idx := st.idx ++ [(p.name, p.shas)],
            finished := st.finished ++ [p],
            data_written_objs := if meta then st.data_written_objs else [],
            meta_written_objs := if meta then [] else st.meta_written_objs }

/-- `_ensure_data_writer`: rotate the data pack when it exceeds
`max_pack_size`, then make sure a data writer exists. -/
def ensure_data (st : RepoState) : Pack × RepoState :=
  let st1 := match st.data_writer with
    | some p =>
        if st.max_pack_size < p.size then
          { finishPack st p false with data_writer := none }
        else st
    | none => st
  match st1.data_writer with
  | some p => (p, st1)
  | none =>
      let pr := newPack st1
      (pr.1, { pr.2 with data_writer := some pr.1 })

/-- The `separatemeta` branch of `_ensure_meta_writer`: rotate the
separate metadata pack when it exceeds `max_pack_size`, then make sure
one exists (`meta_fakesha` is assigned together with this pack, so its
rotation is clean). -/
def ensureMetaSep (st : RepoState) : Pack × RepoState :=
  let st1 := match st.meta_own with
    | some p =>
        if st.max_pack_size < p.size then
          { finishPack st p true with meta_own := none }
        else st
    | none => st
  match st1.meta_own with
  | some p => (p, st1)
  | none =>
      let pr := newPack st1
      (pr.1, { pr.2 with meta_own := some pr.1 })

/-- `_ensure_meta_writer`: with `separatemeta`, rotate and ensure the
separate metadata pack.  Without `separatemeta` the metadata writer is
the data writer; the rotation branch then evaluates
`self.meta_fakesha`, an attribute assigned only in the `separatemeta`
branch, so an over-size shared pack raises `AttributeError` (`none`
here) instead of rotating; otherwise the shared writer stands, or is
created via `_ensure_data_writer`. -/
def ensure_meta (st : RepoState) : Option (Pack × RepoState) :=
  if st.separatemeta then some (ensureMetaSep st)
  else
    match st.data_writer with
    | some p =>
        if st.max_pack_size < p.size then none
        else some (p, st)
    | none => some (ensure_data st)

/-- `EncryptedRepo._data_write`: hash, dedup via `exists`, then write
to the data pack and record the sha in the tentative set. -/
def data_write (st : RepoState) (objtype : Nat) (content : Bytes) : Sha × RepoState :=
  let sha := calc_hash objtype content
  if existsB st sha then (sha, st)
  else
    let pr := ensure_data st
    (sha, { pr.2 with data_writer := some (pr.1.write objtype sha content),
                      data_written_objs := sha :: pr.2.data_written_objs })

/-- `EncryptedRepo._meta_write`: hash, dedup via `exists` (checked
before any writer work, so a repeated write never reaches
`_ensure_meta_writer`), then write through `_ensure_meta_writer`'s
pack — the separate metadata pack with `separatemeta`, the aliased
data writer (and the aliased tentative set) without it.  The result is
`none` exactly where `_ensure_meta_writer` raises. -/
def meta_write (st : RepoState) (objtype : Nat) (content : Bytes) :
    Option (Sha × RepoState) :=
  let sha := calc_hash objtype content
  if existsB st sha then some (sha, st)
  else
    match ensure_meta st with
    | none => none
    | some pr =>
        if st.separatemeta then
          some (sha, { pr.2 with meta_own := some (pr.1.write objtype sha content),
                                 meta_written_objs := sha :: pr.2.meta_written_objs })
        else
          some (sha, { pr.2 with data_writer := some (pr.1.write objtype sha content),
                                 data_written_objs := sha :: pr.2.data_written_objs })

/-- `write_data(data)` writes a blob (git type 3) through the data
path. -/
def write_data (st : RepoState) (data : Bytes) : Sha × RepoState := data_write st 3 data

/-- `write_tree`/`write_commit`/`write_symlink`/`write_bupm` all route
through `_meta_write` with the encoded payload. -/
def write_meta_obj (st : RepoState) (objtype : Nat) (content : Bytes) :
    Option (Sha × RepoState) :=
  meta_write st objtype content

/-- `finish_writing`: finish the separate metadata pack (if any), then
the data pack. -/
def finish_writing (st : RepoState) : RepoState :=
  let st1 :=
    match st.meta_own with
    | some p => { finishPack st p true with meta_own := none }
    | none => st
  match st1.data_writer with
  | some p => { finishPack st1 p false with data_writer := none }
  | none => st1

/-- Hex digit byte (lowercase) of a value below 16. -/
def hexDigitChar (n : Nat) : Nat := if n < 10 then 48 + n else 87 + n

/-- `binascii.hexlify`: two lowercase hex digit bytes per byte. -/
def hexB : Bytes → Bytes
  | [] => []
  | x :: r => hexDigitChar (x / 16) :: hexDigitChar (x % 16) :: hexB r

/-- Value of one hex digit byte (`0-9a-fA-F`). -/
def hexDigitVal (c : Nat) : Nat :=
  if 48 ≤ c ∧ c ≤ 57 then c - 48
  else if 97 ≤ c ∧ c ≤ 102 then c - 87
  else if 65 ≤ c ∧ c ≤ 70 then c - 55
  else 0

/-- `binascii.unhexlify` on an even-length hex string. -/
def unhexB : Bytes → Bytes
  | c1 :: c2 :: rest => (hexDigitVal c1 * 16 + hexDigitVal c2) :: unhexB rest
  | _ => []

/-- One byte is a hex digit (`ref` check in `EncryptedRepo.cat`:
`x in b'0123456789abcdefABCDEF'`). -/
def isHexDigit (c : Nat) : Bool :=
  (48 ≤ c && c ≤ 57) || (97 ≤ c && c ≤ 102) || (65 ≤ c && c ≤ 70)

/-- The `len(ref) == 40 and all(hex digits)` test of `cat`. -/
def is40hex (ref : Bytes) : Bool := ref.length == 40 && ref.all isHexDigit

/-- First-match lookup in the decoded refs mapping. -/
def lookupRef : List (Bytes × Bytes) → Bytes → Option Bytes
  | [], _ => none
  | (k, v) :: rest, name => if k = name then some v else lookupRef rest name

/-- Python dict update `refs[refname] = value`: replace the existing
binding or append a new one. -/
def setRef : List (Bytes × Bytes) → Bytes → Bytes → List (Bytes × Bytes)
  | [], name, v => [(name, v)]
  | (k, w) :: rest, name, v =>
      if k = name then (k, v) :: rest else (k, w) :: setRef rest name v

/-- `update_ref` from encrypted.py: finish writing all open packs, load
the refs file, check `refs[refname] == hexlify(oldval)` when `oldval`
is truthy (a `KeyError` or failed assertion raises), store
`hexlify(newval)`, rewrite the refs file. -/
def update_ref (st : RepoState) (refname newval : Bytes) (oldval : Option Bytes) :
    Option RepoState :=
  let st1 := finish_writing st
  let ok : Bool :=
    match oldval with
    | none => true
    | some ov =>
        if ov = [] then true
        else
          match lookupRef st1.refs refname with
          | some v => v = hexB ov
          | none => false
  if ok then some { st1 with refs := setRef st1.refs refname (hexB newval) } else none

/-- The `b'refs/heads/'` byte string. -/
def headsName : Bytes := [114, 101, 102, 115, 47, 104, 101, 97, 100, 115, 47]

/-- `EncryptedRepo.refs`: filter the refs file by component-level
pattern suffix (split on `/`) and by the `refs/heads/` limit, decoding
the stored hex oids. -/
def refsList (st : RepoState) (patterns : Option (List Bytes)) (limit_to_heads : Bool) :
    List (Bytes × Bytes) :=
  (st.refs.filter (fun rv =>
    (match patterns with
     | none => true
     | some ps => ps.any (fun p => (List.splitOn 47 p).isSuffixOf (List.splitOn 47 rv.1))) &&
    (!limit_to_heads || headsName.isPrefixOf rv.1))).map (fun rv => (rv.1, unhexB rv.2))

/-- `EncryptedRepo.read_ref`: query `refs` with the ref as pattern,
heads only; no match returns `None` (`some none` here), one match its
oid; two or more matches fail the `len(l) == 1` assertion (`none`). -/
def read_ref (st : RepoState) (ref : Bytes) : Option (Option Sha) :=
  match refsList st (some [ref]) true with
  | [] => some none
  | [rv] => some (some rv.2)
  | _ => none

/-- Result of `cat`: either the `(None, None, None)` triple for a
missing object, or the object header and data read from the named
pack. -/
inductive CatRes where
  | notFound
  | found (oidx : Bytes) (packname : Nat)
deriving DecidableEq

/-- The idx lookup and read of `cat` once an oid is in hand. -/
def catLookup (st : RepoState) (oid : Sha) : Option CatRes :=
  match idxLookup st.idx oid with
  | none => some CatRes.notFound
  | some nm => some (CatRes.found (hexB oid) nm)

/-- `EncryptedRepo.cat`: a 40-hex ref is unhexlified directly; any other
ref goes through `read_ref` and raises (`none`) when it does not
resolve; then the oid is looked up in the idx list, yielding
`(None, None, None)` when absent. -/
def cat (st : RepoState) (ref : Bytes) : Option CatRes :=
  if is40hex ref then catLookup st (unhexB ref)
  else
    match read_ref st ref with
    | none => none
    | some none => none
    | some (some oid) => catLookup st oid

/-- Result of `EncryptedRepo.exists(sha, want_source)`: falsy `None`,
`True`, or the idx name from `PackIdxList.exists` with
`want_source`. -/
inductive ExRes where
  | absent
  | present
  | source (idxname : Nat)
deriving DecidableEq

/-- Modelled from the spec and the base-class contract:
`PackIdxList.exists` (git.py not in src/) returns the containing idx
name when `want_source` is set, `True` when only existence was asked,
`None` when absent. -/
def idxlist_exists (idx : List (Nat × List Sha)) (sha : Sha) (want_source : Bool) : ExRes :=
  match idxLookup idx sha with
  | none => ExRes.absent
  | some nm => if want_source then ExRes.source nm else ExRes.present

/-- `EncryptedRepo.exists`: the tentative sets are consulted first and
answer plain `True`; only then is the idx list asked (honoring
`want_source`). -/
def exists_impl (st : RepoState) (sha : Sha) (want_source : Bool) : ExRes :=
  if sha ∈ st.data_written_objs then ExRes.present
  else if st.separatemeta ∧ sha ∈ st.meta_written_objs then ExRes.present
  else idxlist_exists st.idx sha want_source

/-- Shas recorded in the open data writer. -/
def dwShas (st : RepoState) : List Sha :=
  match st.data_writer with
  | some p => p.shas
  | none => []

/-- Shas recorded in the open separate metadata writer. -/
def mownShas (st : RepoState) : List Sha :=
  match st.meta_own with
  | some p => p.shas
  | none => []

/-- Shas present in the idx list. -/
def idxShas (st : RepoState) : List Sha := (st.idx.map Prod.snd).flatten

/-- Shas of all finished packs. -/
def finShas (st : RepoState) : List Sha := (st.finished.map Pack.shas).flatten

/-- Reachable-state invariant of the write paths: the tentative sets
hold exactly the shas of the corresponding open writers, the separate
metadata writer exists only with `separatemeta`, and every finished
pack's shas are in the idx list. -/
def WF (st : RepoState) : Prop :=
  (∀ sha, sha ∈ st.data_written_objs ↔ sha ∈ dwShas st) ∧
  (∀ sha, sha ∈ st.meta_written_objs ↔ sha ∈ mownShas st) ∧
  (st.separatemeta = false → st.meta_own = none ∧ st.meta_written_objs = []) ∧
  (∀ sha, sha ∈ finShas st → sha ∈ idxShas st)

/-- `idxLookup` finds nothing exactly when the sha is in no idx file. -/
theorem idxLookup_none_iff (idx : List (Nat × List Sha)) (sha : Sha) :
    idxLookup idx sha = none ↔ sha ∉ (idx.map Prod.snd).flatten := by
  induction idx with
  | nil => simp [idxLookup]
  | cons e rest ih =>
    obtain ⟨nm, shas⟩ := e
    by_cases h : sha ∈ shas
    · simp [idxLookup, h]
    · simp [idxLookup, h, ih]

/-- A truthy `exists` has one of the three sources. -/
theorem existsB_cases (st : RepoState) (sha : Sha) (h : existsB st sha = true) :
    sha ∈ st.data_written_objs ∨ (st.separatemeta = true ∧ sha ∈ st.meta_written_objs) ∨
      sha ∈ idxShas st := by
  unfold existsB at h
  by_cases h1 : sha ∈ st.data_written_objs
  · exact Or.inl h1
  · rw [if_neg h1] at h
    by_cases h2 : st.separatemeta = true ∧ sha ∈ st.meta_written_objs
    · exact Or.inr (Or.inl h2)
    · rw [if_neg h2] at h
      refine Or.inr (Or.inr ?_)
      by_contra hc
      simp only [idxShas] at hc
      rw [← idxLookup_none_iff st.idx sha] at hc
      rw [hc] at h
      exact Bool.noConfusion h

/-- The state of a freshly opened session with `separatemeta` off: no
open writers, nothing written, empty idx list and refs file. -/
def initState : RepoState :=
  { separatemeta := false, max_pack_size := 1000, next_id := 0,
    data_writer := none, meta_own := none,
    data_written_objs := [], meta_written_objs := [],
    idx := [], finished := [], refs := [] }

/-- The fresh session state satisfies the invariant. -/
theorem initState_wf : WF initState := by
  refine ⟨fun sha => ?_, fun sha => ?_, fun _ => ⟨rfl, rfl⟩, fun sha h => ?_⟩
  · simp [initState, dwShas]
  · simp [initState, mownShas]
  · simp [initState, finShas] at h

/-- A fresh session with `separatemeta` on. -/
def initStateSep : RepoState :=
  { separatemeta := true, max_pack_size := 1000, next_id := 0,
    data_writer := none, meta_own := none,
    data_written_objs := [], meta_written_objs := [],
    idx := [], finished := [], refs := [] }

/-- The separate-metadata fresh session satisfies the invariant. -/
theorem initStateSep_wf : WF initStateSep := by
  refine ⟨fun sha => ?_, fun sha => ?_, fun h => ?_, fun sha h => ?_⟩
  · simp [initStateSep, dwShas]
  · simp [initStateSep, mownShas]
  · exact Bool.noConfusion h
  · simp [initStateSep, finShas] at h

/-- The shared-mode raise at a concrete reachable input: one data
write in a fresh session with `max_pack_size` 10 leaves a 36-byte
shared pack, so the next fresh metadata write raises instead of
writing. -/
theorem shared_rotation_raises :
    meta_write (data_write { initState with max_pack_size := 10 } 3 [1, 2, 3]).2
      2 [5] = none := by
  rfl

/-- First phase of `finish_writing`: finish the separate metadata pack
when one is open. -/
def stepMeta (st : RepoState) : RepoState :=
  match st.meta_own with
  | some p => { finishPack st p true with meta_own := none }
  | none => st

/-- Second phase of `finish_writing`: finish the data pack when one is
open. -/
def stepData (st : RepoState) : RepoState :=
  match st.data_writer with
  | some p => { finishPack st p false with data_writer := none }
  | none => st

/-- `finish_writing` is the two phases in sequence. -/
theorem finish_writing_eq (st : RepoState) :
    finish_writing st = stepData (stepMeta st) := by
  unfold finish_writing stepData stepMeta
  rfl

/-- Finishing the metadata pack empties the metadata side, moves its
shas into the idx list, and touches nothing on the data side. -/
theorem stepMeta_spec (st : RepoState) (hwf : WF st) :
    (stepMeta st).meta_own = none ∧
    (stepMeta st).meta_written_objs = [] ∧
    WF (stepMeta st) ∧
    (stepMeta st).data_writer = st.data_writer ∧
    (stepMeta st).data_written_objs = st.data_written_objs ∧
    (stepMeta st).separatemeta = st.separatemeta ∧
    (stepMeta st).refs = st.refs ∧
    (∀ sha, sha ∈ idxShas st → sha ∈ idxShas (stepMeta st)) ∧
    (∀ sha, sha ∈ mownShas st → sha ∈ idxShas (stepMeta st)) := by
  obtain ⟨hdw, hmw, hsep, hfin⟩ := hwf
  cases hm : st.meta_own with
  | some q =>
    have hres : stepMeta st = { st with
        idx := st.idx ++ [(q.name, q.shas)],
        finished := st.finished ++ [q],
        meta_written_objs := [],
        meta_own := none } := by
      unfold stepMeta
      rw [hm]
      simp only [finishPack]
      rfl
    rw [hres]
    have hmeq : mownShas st = q.shas := by
      rw [mownShas]
      rw [hm]
    refine ⟨rfl, rfl, ⟨?_, ?_, ?_, ?_⟩, rfl, rfl, rfl, rfl, ?_, ?_⟩
    · intro s
      exact hdw s
    · intro s
      simp [mownShas]
    · intro _
      exact ⟨rfl, rfl⟩
    · intro s hfs
      simp only [finShas, idxShas, List.map_append, List.flatten_append,
        List.mem_append] at hfs ⊢
      rcases hfs with hc | hc
      · exact Or.inl (by simpa [idxShas] using hfin s (by simpa [finShas] using hc))
      · simp at hc
        simpa using Or.inr hc
    · intro s hs
      simp only [idxShas, List.map_append, List.flatten_append, List.mem_append]
      exact Or.inl (by simpa [idxShas] using hs)
    · intro s hs
      rw [hmeq] at hs
      simp only [idxShas, List.map_append, List.flatten_append, List.mem_append]
      refine Or.inr ?_
      simpa using hs
  | none =>
    have hres : stepMeta st = st := by
      unfold stepMeta
      rw [hm]
    rw [hres]
    have hmeq : mownShas st = [] := by
      rw [mownShas]
      rw [hm]
    have hmempty : st.meta_written_objs = [] := by
      refine List.eq_nil_iff_forall_not_mem.mpr fun s hs => ?_
      have := (hmw s).mp hs
      rw [hmeq] at this
      exact List.not_mem_nil s this
    refine ⟨hm, hmempty, ⟨hdw, hmw, hsep, hfin⟩, rfl, rfl, rfl, rfl,
      fun s hs => hs, fun s hs => ?_⟩
    rw [hmeq] at hs
    exact absurd hs (List.not_mem_nil s)

/-- Finishing the data pack empties the data side, moves its shas into
the idx list, and touches nothing on the metadata side. -/
theorem stepData_spec (st : RepoState) (hwf : WF st) :
    (stepData st).data_writer = none ∧
    (stepData st).data_written_objs = [] ∧
    WF (stepData st) ∧
    (stepData st).meta_own = st.meta_own ∧
    (stepData st).meta_written_objs = st.meta_written_objs ∧
    (stepData st).separatemeta = st.separatemeta ∧
    (stepData st).refs = st.refs ∧
    (∀ sha, sha ∈ idxShas st → sha ∈ idxShas (stepData st)) ∧
    (∀ sha, sha ∈ dwShas st → sha ∈ idxShas (stepData st)) := by
  obtain ⟨hdw, hmw, hsep, hfin⟩ := hwf
  cases hd : st.data_writer with
  | some p =>
    have hres : stepData st = { st with
        idx := st.idx ++ [(p.name, p.shas)],
        finished := st.finished ++ [p],
        data_written_objs := [],
        data_writer := none } := by
      unfold stepData
      rw [hd]
      simp only [finishPack]
      rfl
    rw [hres]
    have hdeq : dwShas st = p.shas := by
      rw [dwShas]
      rw [hd]
    refine ⟨rfl, rfl, ⟨?_, ?_, ?_, ?_⟩, rfl, rfl, rfl, rfl, ?_, ?_⟩
    · intro s
      simp [dwShas]
    · intro s
      exact hmw s
    · intro hf
      exact hsep hf
    · intro s hfs
      simp only [finShas, idxShas, List.map_append, List.flatten_append,
        List.mem_append] at hfs ⊢
      rcases hfs with hc | hc
      · exact Or.inl (by simpa [idxShas] using hfin s (by simpa [finShas] using hc))
      · simp at hc
        simpa using Or.inr hc
    · intro s hs
      simp only [idxShas, List.map_append, List.flatten_append, List.mem_append]
      exact Or.inl (by simpa [idxShas] using hs)
    · intro s hs
      rw [hdeq] at hs
      simp only [idxShas, List.map_append, List.flatten_append, List.mem_append]
      refine Or.inr ?_
      simpa using hs
  | none =>
    have hres : stepData st = st := by
      unfold stepData
      rw [hd]
    rw [hres]
    have hdeq : dwShas st = [] := by
      rw [dwShas]
      rw [hd]
    have hdempty : st.data_written_objs = [] := by
      refine List.eq_nil_iff_forall_not_mem.mpr fun s hs => ?_
      have := (hdw s).mp hs
      rw [hdeq] at this
      exact List.not_mem_nil s this
    refine ⟨hd, hdempty, ⟨hdw, hmw, hsep, hfin⟩, rfl, rfl, rfl, rfl,
      fun s hs => hs, fun s hs => ?_⟩
    rw [hdeq] at hs
    exact absurd hs (List.not_mem_nil s)

/-- `finish_writing`: both writers are closed, the tentative sets are
empty, every object `exists` knew about is now in the idx list, and the
refs file is untouched. -/
theorem finish_writing_spec (st : RepoState) (hwf : WF st) :
    (finish_writing st).data_writer = none ∧
    (finish_writing st).meta_own = none ∧
    (finish_writing st).data_written_objs = [] ∧
    (finish_writing st).meta_written_objs = [] ∧
    WF (finish_writing st) ∧
    (∀ sha, existsB st sha = true → sha ∈ idxShas (finish_writing st)) ∧
    (finish_writing st).refs = st.refs ∧
    (finish_writing st).separatemeta = st.separatemeta := by
  obtain ⟨m1, m2, m3, m4, m5, m6, m7, m8, m9⟩ := stepMeta_spec st hwf
  obtain ⟨d1, d2, d3, d4, d5, d6, d7, d8, d9⟩ := stepData_spec (stepMeta st) m3
  rw [finish_writing_eq]
  have hdwstep : dwShas (stepMeta st) = dwShas st := by
    rw [dwShas, m4, ← dwShas]
  refine ⟨d1, ?_, d2, ?_, d3, ?_, d7.trans m7, d6.trans m6⟩
  · rw [d4, m1]
  · rw [d5, m2]
  · intro sha hex
    obtain ⟨hdw, hmw, _, _⟩ := hwf
    rcases existsB_cases st sha hex with hc | hc | hc
    · exact d9 sha (by rw [hdwstep]; exact (hdw sha).mp hc)
    · exact d8 sha (m9 sha ((hmw sha).mp hc.2))
    · exact d8 sha (m8 sha hc)


/-- A dict store followed by a lookup of the same key returns the
stored value. -/
theorem lookupRef_setRef (refs : List (Bytes × Bytes)) (name v : Bytes) :
    lookupRef (setRef refs name v) name = some v := by
  induction refs with
  | nil => simp [setRef, lookupRef]
  | cons kv rest ih =>
    obtain ⟨k, w⟩ := kv
    by_cases h : k = name
    · simp [setRef, lookupRef, h]
    · simp only [setRef, if_neg h, lookupRef]
      exact ih

/-- Evaluation form of `update_ref`. -/
theorem update_ref_eq (st : RepoState) (refname newval : Bytes) (oldval : Option Bytes) :
    update_ref st refname newval oldval =
      if (match oldval with
          | none => true
          | some ov =>
              if ov = [] then true
              else match lookupRef (finish_writing st).refs refname with
                   | some v => decide (v = hexB ov)
                   | none => false) = true
      then some { finish_writing st with
                  refs := setRef (finish_writing st).refs refname (hexB newval) }
      else none := rfl

/-- C7: `update_ref` first runs `finish_writing`, so any state it
returns has no open writers and holds every object the starting state
knew about in its idx list; with a truthy `oldval` the update returns a
state only if the refs file maps the ref to `oldval`'s hex, and any
returned state maps the ref to `newval`'s hex. -/
theorem C7_update_ref (st : RepoState) (hwf : WF st) (refname newval : Bytes)
    (oldval : Option Bytes) :
    (∀ st2, update_ref st refname newval oldval = some st2 →
       st2.data_writer = none ∧ st2.meta_own = none ∧
       (∀ sha, existsB st sha = true → sha ∈ idxShas st2) ∧
       lookupRef st2.refs refname = some (hexB newval)) ∧
    (∀ ov, oldval = some ov → ov ≠ [] →
       lookupRef st.refs refname ≠ some (hexB ov) →
       update_ref st refname newval oldval = none) ∧
    (∀ ov, oldval = some ov →
       lookupRef st.refs refname = some (hexB ov) →
       ∃ st2, update_ref st refname newval oldval = some st2) ∧
    (oldval = none → ∃ st2, update_ref st refname newval oldval = some st2) := by
  obtain ⟨f1, f2, f3, f4, f5, f6, f7, f8⟩ := finish_writing_spec st hwf
  refine ⟨?_, ?_, ?_, ?_⟩
  · intro st2 h
    rw [update_ref_eq] at h
    split at h
    · have h2 := Option.some.inj h
      subst h2
      refine ⟨f1, f2, ?_, ?_⟩
      · intro sha hex
        exact f6 sha hex
      · show lookupRef (setRef (finish_writing st).refs refname (hexB newval)) refname = _
        exact lookupRef_setRef _ _ _
    · exact Option.noConfusion h
  · intro ov hov hne hmiss
    subst hov
    rw [update_ref_eq]
    have hcond : (match some ov with
          | none => true
          | some ov =>
              if ov = [] then true
              else match lookupRef (finish_writing st).refs refname with
                   | some v => decide (v = hexB ov)
                   | none => false) = false := by
      show (if ov = [] then true
            else match lookupRef (finish_writing st).refs refname with
                 | some v => decide (v = hexB ov)
                 | none => false) = false
      rw [if_neg hne, f7]
      cases hlk : lookupRef st.refs refname with
      | none => rfl
      | some v =>
        refine decide_eq_false fun hveq => hmiss ?_
        rw [hlk, hveq]
    rw [hcond]
    rfl
  · intro ov hov hhit
    subst hov
    rw [update_ref_eq]
    have hcond : (match some ov with
          | none => true
          | some ov =>
              if ov = [] then true
              else match lookupRef (finish_writing st).refs refname with
                   | some v => decide (v = hexB ov)
                   | none => false) = true := by
      show (if ov = [] then true
            else match lookupRef (finish_writing st).refs refname with
                 | some v => decide (v = hexB ov)
                 | none => false) = true
      by_cases hnil : ov = []
      · rw [if_pos hnil]
      · rw [if_neg hnil, f7, hhit]
        exact decide_eq_true rfl
    rw [hcond]
    exact ⟨_, rfl⟩
  · intro hov
    subst hov
    exact ⟨_, rfl⟩

/-- C7 at a concrete input: a CAS update against an empty refs file. -/
theorem C7_update_ref_witness :
    WF initState ∧
    ((∀ st2, update_ref initState [97] [1] (some [2]) = some st2 →
       st2.data_writer = none ∧ st2.meta_own = none ∧
       (∀ sha, existsB initState sha = true → sha ∈ idxShas st2) ∧
       lookupRef st2.refs [97] = some (hexB [1])) ∧
     (∀ ov, (some [2] : Option Bytes) = some ov → ov ≠ [] →
       lookupRef initState.refs [97] ≠ some (hexB ov) →
       update_ref initState [97] [1] (some [2]) = none) ∧
     (∀ ov, (some [2] : Option Bytes) = some ov →
       lookupRef initState.refs [97] = some (hexB ov) →
       ∃ st2, update_ref initState [97] [1] (some [2]) = some st2) ∧
     ((some [2] : Option Bytes) = none →
       ∃ st2, update_ref initState [97] [1] (some [2]) = some st2)) :=
  ⟨initState_wf, C7_update_ref initState initState_wf [97] [1] (some [2])⟩

/-- C8 counterexample: after one write in a fresh session, the written
sha is present (`exists` is truthy), yet `exists(sha, want_source=True)`
answers the plain boolean `True` from the tentative set, not a pack
source. -/
theorem C8_exists_source_counterexample :
    existsB (data_write initState 3 [7]).2 (calc_hash 3 [7]) = true ∧
    exists_impl (data_write initState 3 [7]).2 (calc_hash 3 [7]) true = ExRes.present := by
  exact ⟨by decide, by decide⟩

/-- C8 (amended): `exists` consults the tentative sets first — those
answer the plain boolean `True` even when `want_source` is set — and
only then the idx list; the pack source is returned exactly for shas
that are absent from the tentative sets and resident in an idx file,
and `None` is answered exactly when the sha is nowhere. -/
theorem C8_exists_want_source (st : RepoState) (sha : Sha) (ws : Bool) :
    (sha ∈ st.data_written_objs ∨ (st.separatemeta = true ∧ sha ∈ st.meta_written_objs) →
       exists_impl st sha ws = ExRes.present) ∧
    (sha ∉ st.data_written_objs →
       ¬(st.separatemeta = true ∧ sha ∈ st.meta_written_objs) →
       sha ∈ idxShas st →
       ∃ nm, idxLookup st.idx sha = some nm ∧
         exists_impl st sha true = ExRes.source nm ∧
         exists_impl st sha false = ExRes.present) ∧
    (existsB st sha = false → exists_impl st sha ws = ExRes.absent) ∧
    (exists_impl st sha ws = ExRes.absent ↔ existsB st sha = false) := by
  have habs : existsB st sha = false → exists_impl st sha ws = ExRes.absent := by
    intro h
    unfold existsB at h
    unfold exists_impl
    by_cases h1 : sha ∈ st.data_written_objs
    · rw [if_pos h1] at h
      exact Bool.noConfusion h
    · rw [if_neg h1] at h
      rw [if_neg h1]
      by_cases h2 : st.separatemeta = true ∧ sha ∈ st.meta_written_objs
      · rw [if_pos h2] at h
        exact Bool.noConfusion h
      · rw [if_neg h2] at h
        rw [if_neg h2]
        unfold idxlist_exists
        cases hlk : idxLookup st.idx sha with
        | none => rfl
        | some nm =>
          rw [hlk] at h
          exact Bool.noConfusion h
  refine ⟨?_, ?_, habs, ?_⟩
  · intro hten
    unfold exists_impl
    by_cases h1 : sha ∈ st.data_written_objs
    · rw [if_pos h1]
    · rw [if_neg h1]
      rcases hten with hc | hc
      · exact absurd hc h1
      · rw [if_pos hc]
  · intro h1 h2 hidx
    have hlk : idxLookup st.idx sha ≠ none := by
      rw [Ne, idxLookup_none_iff]
      intro hc
      exact hc hidx
    cases hl : idxLookup st.idx sha with
    | none => exact absurd hl hlk
    | some nm =>
      refine ⟨nm, rfl, ?_, ?_⟩
      · unfold exists_impl
        rw [if_neg h1, if_neg h2]
        unfold idxlist_exists
        rw [hl]
        rfl
      · unfold exists_impl
        rw [if_neg h1, if_neg h2]
        unfold idxlist_exists
        rw [hl]
        rfl
  · constructor
    · intro habs2
      unfold exists_impl at habs2
      unfold existsB
      by_cases h1 : sha ∈ st.data_written_objs
      · rw [if_pos h1] at habs2
        exact ExRes.noConfusion habs2
      · rw [if_neg h1] at habs2
        rw [if_neg h1]
        by_cases h2 : st.separatemeta = true ∧ sha ∈ st.meta_written_objs
        · rw [if_pos h2] at habs2
          exact ExRes.noConfusion habs2
        · rw [if_neg h2] at habs2
          have h2' : ¬(st.separatemeta ∧ sha ∈ st.meta_written_objs) := h2
          rw [if_neg h2']
          unfold idxlist_exists at habs2
          cases hlk : idxLookup st.idx sha with
          | none => rfl
          | some nm =>
            rw [hlk] at habs2
            cases ws with
            | true => exact ExRes.noConfusion habs2
            | false => exact ExRes.noConfusion habs2
    · exact habs

/-- C8 (amended) at a concrete input: the state after one write in a
fresh session, asked about the written sha with `want_source` set. -/
theorem C8_exists_want_source_witness :
    (calc_hash 3 [7] ∈ (data_write initState 3 [7]).2.data_written_objs ∨
       ((data_write initState 3 [7]).2.separatemeta = true ∧
        calc_hash 3 [7] ∈ (data_write initState 3 [7]).2.meta_written_objs) →
     exists_impl (data_write initState 3 [7]).2 (calc_hash 3 [7]) true = ExRes.present) ∧
    (calc_hash 3 [7] ∉ (data_write initState 3 [7]).2.data_written_objs →
       ¬((data_write initState 3 [7]).2.separatemeta = true ∧
         calc_hash 3 [7] ∈ (data_write initState 3 [7]).2.meta_written_objs) →
       calc_hash 3 [7] ∈ idxShas (data_write initState 3 [7]).2 →
       ∃ nm, idxLookup (data_write initState 3 [7]).2.idx (calc_hash 3 [7]) = some nm ∧
         exists_impl (data_write initState 3 [7]).2 (calc_hash 3 [7]) true =
           ExRes.source nm ∧
         exists_impl (data_write initState 3 [7]).2 (calc_hash 3 [7]) false =
           ExRes.present) ∧
    (existsB (data_write initState 3 [7]).2 (calc_hash 3 [7]) = false →
     exists_impl (data_write initState 3 [7]).2 (calc_hash 3 [7]) true = ExRes.absent) ∧
    (exists_impl (data_write initState 3 [7]).2 (calc_hash 3 [7]) true = ExRes.absent ↔
     existsB (data_write initState 3 [7]).2 (calc_hash 3 [7]) = false) :=
  C8_exists_want_source (data_write initState 3 [7]).2 (calc_hash 3 [7]) true

/-- C10 counterexample: a one-letter ref (`b'x'`, not 40-hex) that does
resolve through the refs file to a branch whose oid is absent from the
idx list makes `cat` yield `(None, None, None)` — so the yield is not
limited to 40-hex refs. -/
theorem C10_cat_counterexample :
    cat { initState with refs := [(headsName ++ [120], hexB [1])] } [120] =
      some CatRes.notFound ∧
    is40hex [120] = false := by
  exact ⟨by decide, by decide⟩

/-- C10 (amended): `cat` yields `(None, None, None)` exactly when the
oid in hand — taken from a 40-hex ref directly, or resolved through the
refs file — is absent from the idx list; a ref that is not 40-hex and
does not resolve to exactly one branch raises instead. -/
theorem C10_cat_spec (st : RepoState) (ref : Bytes) :
    (is40hex ref = true →
       (cat st ref = some CatRes.notFound ↔ unhexB ref ∉ idxShas st) ∧
       (∀ nm, idxLookup st.idx (unhexB ref) = some nm →
          cat st ref = some (CatRes.found (hexB (unhexB ref)) nm))) ∧
    (is40hex ref = false →
       (read_ref st ref = some none → cat st ref = none) ∧
       (read_ref st ref = none → cat st ref = none) ∧
       (∀ oid, read_ref st ref = some (some oid) →
          (cat st ref = some CatRes.notFound ↔ oid ∉ idxShas st))) ∧
    (cat st ref = some CatRes.notFound →
       (is40hex ref = true ∧ unhexB ref ∉ idxShas st) ∨
       (is40hex ref = false ∧
        ∃ oid, read_ref st ref = some (some oid) ∧ oid ∉ idxShas st)) := by
  have hcl1 : ∀ oid, catLookup st oid = some CatRes.notFound ↔ oid ∉ idxShas st := by
    intro oid
    constructor
    · intro h
      rw [idxShas, ← idxLookup_none_iff]
      unfold catLookup at h
      cases hlk : idxLookup st.idx oid with
      | none => rfl
      | some nm =>
        rw [hlk] at h
        exact CatRes.noConfusion (Option.some.inj h)
    · intro h
      unfold catLookup
      rw [idxShas, ← idxLookup_none_iff] at h
      rw [h]
  have hcl2 : ∀ oid nm, idxLookup st.idx oid = some nm →
      catLookup st oid = some (CatRes.found (hexB oid) nm) := by
    intro oid nm hlk
    unfold catLookup
    rw [hlk]
  refine ⟨?_, ?_, ?_⟩
  · intro h40
    constructor
    · unfold cat
      rw [if_pos h40]
      exact hcl1 _
    · intro nm hlk
      unfold cat
      rw [if_pos h40]
      exact hcl2 _ nm hlk
  · intro h40
    have h40' : ¬is40hex ref = true := by rw [h40]; exact Bool.noConfusion
    refine ⟨?_, ?_, ?_⟩
    · intro hrr
      unfold cat
      rw [if_neg h40', hrr]
    · intro hrr
      unfold cat
      rw [if_neg h40', hrr]
    · intro oid hrr
      unfold cat
      rw [if_neg h40', hrr]
      exact hcl1 oid
  · intro hnf
    cases h40 : is40hex ref with
    | true =>
      refine Or.inl ⟨rfl, ?_⟩
      unfold cat at hnf
      rw [if_pos h40] at hnf
      exact (hcl1 _).mp hnf
    | false =>
      have h40' : ¬is40hex ref = true := by rw [h40]; exact Bool.noConfusion
      refine Or.inr ⟨rfl, ?_⟩
      unfold cat at hnf
      rw [if_neg h40'] at hnf
      cases hrr : read_ref st ref with
      | none =>
        rw [hrr] at hnf
        exact Option.noConfusion hnf
      | some o =>
        cases o with
        | none =>
          rw [hrr] at hnf
          exact Option.noConfusion hnf
        | some oid =>
          rw [hrr] at hnf
          exact ⟨oid, rfl, (hcl1 oid).mp hnf⟩

/-- C10 (amended) at a concrete input: the refs-file state of the
counterexample, asked for ref `b'x'`. -/
theorem C10_cat_spec_witness :
    (is40hex [120] = true →
       (cat { initState with refs := [(headsName ++ [120], hexB [1])] } [120] =
          some CatRes.notFound ↔
        unhexB [120] ∉ idxShas { initState with refs := [(headsName ++ [120], hexB [1])] }) ∧
       (∀ nm, idxLookup { initState with
            refs := [(headsName ++ [120], hexB [1])] }.idx (unhexB [120]) = some nm →
          cat { initState with refs := [(headsName ++ [120], hexB [1])] } [120] =
            some (CatRes.found (hexB (unhexB [120])) nm))) ∧
    (is40hex [120] = false →
       (read_ref { initState with refs := [(headsName ++ [120], hexB [1])] } [120] =
          some none →
        cat { initState with refs := [(headsName ++ [120], hexB [1])] } [120] = none) ∧
       (read_ref { initState with refs := [(headsName ++ [120], hexB [1])] } [120] =
          none →
        cat { initState with refs := [(headsName ++ [120], hexB [1])] } [120] = none) ∧
       (∀ oid, read_ref { initState with
            refs := [(headsName ++ [120], hexB [1])] } [120] = some (some oid) →
          (cat { initState with refs := [(headsName ++ [120], hexB [1])] } [120] =
             some CatRes.notFound ↔
           oid ∉ idxShas { initState with refs := [(headsName ++ [120], hexB [1])] }))) ∧
    (cat { initState with refs := [(headsName ++ [120], hexB [1])] } [120] =
       some CatRes.notFound →
       (is40hex [120] = true ∧
        unhexB [120] ∉ idxShas { initState with refs := [(headsName ++ [120], hexB [1])] }) ∨
       (is40hex [120] = false ∧
        ∃ oid, read_ref { initState with
            refs := [(headsName ++ [120], hexB [1])] } [120] = some (some oid) ∧
          oid ∉ idxShas { initState with refs := [(headsName ++ [120], hexB [1])] })) :=
  C10_cat_spec { initState with refs := [(headsName ++ [120], hexB [1])] } [120]
